import Mathlib

/-! Rubik's cube solver controller: `CubeSolver`

A shallow embedding of `src/Maincontroller/Command/Solver/CubeSolver.cpp`.

* `std::string` is embedded as `List Char`; `std::vector<string>` as a list of those.
* `CubeSolver::replace` is a `while` loop; it is embedded with an explicit iteration
  budget and returns `none` when the budget is exhausted before the loop exits.
* `CubeSolver::simplifyMoves` builds the blank-terminated text of the moves, runs the
  thirty `replace` calls of the source in source order, and splits the text back into
  blank-delimited words.
-/

namespace busybin

/-! ## Text primitives used by `simplifyMoves` -/

/-- The C++ call `haystack.find(needle)`: the least position at which `needle` occurs in
`haystack`, or `none` for `string::npos`. -/
def find : List Char → List Char → Option Nat
  | [], needle => if needle.isPrefixOf [] then some 0 else none
  | c :: cs, needle =>
    if needle.isPrefixOf (c :: cs) then some 0 else (find cs needle).map (· + 1)

/-- The C++ call `haystack.replace(pos, len, with)`: the `len` characters from position
`pos` on are replaced by `w`. -/
def strReplace (haystack : List Char) (pos len : Nat) (w : List Char) : List Char :=
  haystack.take pos ++ w ++ haystack.drop (pos + len)

/-- The loop of `CubeSolver::replace`: while `needle` occurs in `haystack`, its first
occurrence is replaced by `w`.  The first argument bounds the number of loop tests;
`none` means the loop was still running when the bound was reached. -/
def replace : Nat → List Char → List Char → List Char → Option (List Char)
  | 0, _, _, _ => none
  | fuel + 1, needle, haystack, w =>
    match find haystack needle with
    | none => some haystack
    | some pos => replace fuel needle (strReplace haystack pos needle.length w) w

/-- The characters that `operator>>` on a stream treats as white space in the C locale:
the blank and the control characters 9 to 13. -/
def isspace (c : Char) : Bool :=
  c == ' ' || c == Char.ofNat 9 || c == Char.ofNat 10 || c == Char.ofNat 11 ||
    c == Char.ofNat 12 || c == Char.ofNat 13

/-- Reading words from a stream with `istream_iterator<string>`: `cur` is the word being
read; white space ends a word and is otherwise skipped. -/
def readWords : List Char → List Char → List (List Char)
  | [], cur => if cur.isEmpty then [] else [cur]
  | c :: cs, cur =>
    if isspace c then
      if cur.isEmpty then readWords cs [] else cur :: readWords cs []
    else readWords cs (cur ++ [c])

/-- The rewrite calls of `simplifyMoves`, as (needle, replacement) pairs in source order.
The twenty-fourth entry repeats the twenty-third, as in the source. -/
def rewriteCalls : List (List Char × List Char) :=
  [ ("U2 U2 ".toList, " ".toList),
    ("L2 L2 ".toList, " ".toList),
    ("F2 F2 ".toList, " ".toList),
    ("R2 R2 ".toList, " ".toList),
    ("B2 B2 ".toList, " ".toList),
    ("D2 D2 ".toList, " ".toList),
    ("U U' ".toList, " ".toList),
    ("L L' ".toList, " ".toList),
    ("F F' ".toList, " ".toList),
    ("R R' ".toList, " ".toList),
    ("B B' ".toList, " ".toList),
    ("D D' ".toList, " ".toList),
    ("U' U ".toList, " ".toList),
    ("L' L ".toList, " ".toList),
    ("F' F ".toList, " ".toList),
    ("R' R ".toList, " ".toList),
    ("B' B ".toList, " ".toList),
    ("D' D ".toList, " ".toList),
    ("U U U ".toList, "U' ".toList),
    ("L L L ".toList, "L' ".toList),
    ("F F F ".toList, "F' ".toList),
    ("R R R ".toList, "R' ".toList),
    ("B B B ".toList, "B' ".toList),
    ("B B B ".toList, "B' ".toList),
    ("U U ".toList, "U2 ".toList),
    ("L L ".toList, "L2 ".toList),
    ("F F ".toList, "F2 ".toList),
    ("R R ".toList, "R2 ".toList),
    ("B B ".toList, "B2 ".toList),
    ("D D ".toList, "D2 ".toList) ]

/-- The first loop of `simplifyMoves`: every move followed by one blank. -/
def joinMoves (moves : List (List Char)) : List Char :=
  moves.foldl (fun movesStr move => movesStr ++ (move ++ " ".toList)) []

/-- The method `CubeSolver::simplifyMoves`.  `fuel` is the iteration budget given to each
`replace` call. -/
def simplifyMoves (fuel : Nat) (moves : List (List Char)) : Option (List (List Char)) :=
  (rewriteCalls.foldlM (fun movesStr call => replace fuel call.1 movesStr call.2)
    (joinMoves moves)).map (fun movesStr => readWords movesStr [])

/-! ## Well-formed move tokens

The claims about `simplifyMoves` range over sequences of well-formed tokens: a face
letter followed by nothing, by an apostrophe or by the digit two. -/

/-- The six faces of the cube. -/
inductive Face where
  | U | L | F | R | B | D
  deriving DecidableEq

/-- The three turns of a face: a quarter turn, its inverse, and a half turn. -/
inductive Turn where
  | quarter | inverse | half
  deriving DecidableEq

/-- A move: a face and a turn of it. -/
structure Move where
  face : Face
  turn : Turn
  deriving DecidableEq

/-- The letter of a face. -/
def Face.letter : Face → Char
  | .U => 'U' | .L => 'L' | .F => 'F' | .R => 'R' | .B => 'B' | .D => 'D'

/-- What follows the face letter in a token: nothing, an apostrophe, or the digit two. -/
def Turn.suffix : Turn → List Char
  | .quarter => []
  | .inverse => "'".toList
  | .half => "2".toList

/-- The textual form of a move, for example `U`, `U'` or `U2`. -/
def Move.token (m : Move) : List Char := m.face.letter :: m.turn.suffix

/-- The quarter turn of a face. -/
def Face.q (f : Face) : Move := ⟨f, .quarter⟩

/-- The inverse quarter turn of a face. -/
def Face.inv (f : Face) : Move := ⟨f, .inverse⟩

/-- The half turn of a face. -/
def Face.h (f : Face) : Move := ⟨f, .half⟩

/-- A move read in a group: `X` is the generator of its face, `X'` the inverse of the
generator and `X2` its square. -/
def Move.interp {G : Type} [Group G] (g : Face → G) (m : Move) : G :=
  match m.turn with
  | .quarter => g m.face
  | .inverse => (g m.face)⁻¹
  | .half => g m.face ^ 2

/-- The ordered product of a sequence of moves in a group. -/
def movesProd {G : Type} [Group G] (g : Face → G) (ms : List Move) : G :=
  (ms.map (Move.interp g)).prod

/-- Two adjacent moves that some needle of `rewriteCalls` begins with: a repeated half
turn, a quarter turn next to its inverse (either order), or a repeated quarter turn, all
on one face. -/
def rulePair (a b : Move) : Bool :=
  decide (a.face = b.face) &&
    ((a.turn == .half && b.turn == .half) ||
     (a.turn == .quarter && b.turn == .inverse) ||
     (a.turn == .inverse && b.turn == .quarter) ||
     (a.turn == .quarter && b.turn == .quarter))

/-- No two adjacent moves form a `rulePair`. -/
def noRulePair : List Move → Bool
  | a :: b :: rest => !rulePair a b && noRulePair (b :: rest)
  | _ => true

/-- No two adjacent moves turn the same face. -/
def noSameFace : List Move → Bool
  | a :: b :: rest => decide (a.face ≠ b.face) && noSameFace (b :: rest)
  | _ => true

/-! ## The text of `simplifyMoves` seen as a sequence of items

While `simplifyMoves` runs on well-formed tokens, its text is a sequence of items: a
token followed by one blank, or a lone blank left behind by a cancelled pair. -/

/-- An item of the text: a move token with its blank, or a lone blank. -/
inductive Item where
  | tok (m : Move)
  | gap
  deriving DecidableEq

/-- The characters of an item. -/
def Item.text : Item → List Char
  | .tok m => m.token ++ [' ']
  | .gap => [' ']

/-- The text of a sequence of items. -/
def render : List Item → List Char
  | [] => []
  | i :: is => i.text ++ render is

/-- The moves among a sequence of items, in order. -/
def toks : List Item → List Move
  | [] => []
  | .tok m :: is => m :: toks is
  | .gap :: is => toks is

/-- Whether `pat` is an initial segment of `items`. -/
def startsWith : List Item → List Item → Bool
  | _, [] => true
  | [], _ :: _ => false
  | i :: is, p :: ps => decide (i = p) && startsWith is ps

/-- One rewrite on items: the first occurrence of `pat` is replaced by `r`; `none` when
`pat` does not occur. -/
def itemRewrite (pat r : List Item) : List Item → Option (List Item)
  | [] => if startsWith [] pat then some r else none
  | i :: is =>
    if startsWith (i :: is) pat then some (r ++ (i :: is).drop pat.length)
    else (itemRewrite pat r is).map (i :: ·)

/-- The rewrite loop on items, at most `n` rewrites. -/
def itemReplace (pat r : List Item) : Nat → List Item → List Item
  | 0, items => items
  | n + 1, items =>
    match itemRewrite pat r items with
    | none => items
    | some items' => itemReplace pat r n items'

/-- The calls of `rewriteCalls` on items: (pattern, replacement) in the same order. -/
def itemCalls : List (List Item × List Item) :=
  let faces := [Face.U, Face.L, Face.F, Face.R, Face.B, Face.D]
  faces.map (fun f => ([Item.tok f.h, Item.tok f.h], [Item.gap])) ++
  faces.map (fun f => ([Item.tok f.q, Item.tok f.inv], [Item.gap])) ++
  faces.map (fun f => ([Item.tok f.inv, Item.tok f.q], [Item.gap])) ++
  [Face.U, Face.L, Face.F, Face.R, Face.B, Face.B].map
    (fun f => ([Item.tok f.q, Item.tok f.q, Item.tok f.q], [Item.tok f.inv])) ++
  faces.map (fun f => ([Item.tok f.q, Item.tok f.q], [Item.tok f.h]))

/-- All the calls of `itemCalls`, one after the other, each with at most `n` rewrites. -/
def itemSimplify (n : Nat) (items : List Item) : List Item :=
  itemCalls.foldl (fun items call => itemReplace call.1 call.2 n items) items

/-- The effect of `simplifyMoves` on a sequence of moves, computed on items. -/
def simplify (ms : List Move) : List Move :=
  toks (itemSimplify ms.length (ms.map Item.tok))

/-! ## Auxiliary definitions for the proofs about `simplifyMoves` -/

/-- One turn of the loop of `replace`: the text after the first occurrence of `needle` is
replaced, or `none` when `needle` does not occur. -/
def replaceStep (needle haystack w : List Char) : Option (List Char) :=
  (find haystack needle).map (fun pos => strReplace haystack pos needle.length w)

/-- A pattern made of tokens only. -/
def tokPat (ps : List Move) : List Item := ps.map Item.tok

/-- A nonempty pattern made of tokens only. -/
def isTokPat : List Item → Bool
  | [] => false
  | [.tok _] => true
  | .tok _ :: rest => isTokPat rest
  | .gap :: _ => false

/-- A call whose pattern is made of tokens and is longer than its replacement. -/
def goodCall (c : List Item × List Item) : Bool :=
  isTokPat c.1 && decide (c.2.length < c.1.length)

/-- The pattern of a call begins with two tokens that form a `rulePair`. -/
def callHead (c : List Item × List Item) : Bool :=
  match c.1 with
  | .tok a :: .tok b :: _ => rulePair a b
  | _ => false

/-! ## The solver state machine: `onKeypress`, `onPulse`, `setSolving`, `processGoalMoves`

Each method is embedded as a function on the fields of `CubeSolver`.  The collaborators
whose sources are not at hand (`Timer`, `CubeMover`, `ThreadPool`, the two cube classes)
are embedded by what the solver observes of them.  Times are rational numbers of seconds
on the timer's clock; one call reads the clock once. -/

/-- Modelled from the spec: the pacing timer of `Util/Timer.h`, which tracks the time
elapsed since it was last restarted and is not started until its first restart. -/
structure Timer where
  started : Bool
  startTime : ℚ
  deriving DecidableEq

/-- The timer as constructed by `Timer(false)`: not started. -/
def Timer.init : Timer := ⟨false, 0⟩

/-- The call `isStarted()`. -/
def Timer.isStarted (t : Timer) : Bool := t.started

/-- The call `getElapsedSeconds()` when the clock reads `now`. -/
def Timer.getElapsedSeconds (t : Timer) (now : ℚ) : ℚ := now - t.startTime

/-- The call `restart()` when the clock reads `now`. -/
def Timer.restart (_t : Timer) (now : ℚ) : Timer := ⟨true, now⟩

/-- Modelled from the spec: the `CubeMover` command, of which the solver uses the switch
that says whether manual moves are accepted. -/
structure CubeMover where
  enabled : Bool
  deriving DecidableEq

/-- The call `isEnabled()`. -/
def CubeMover.isEnabled (m : CubeMover) : Bool := m.enabled

/-- The call `enable()`. -/
def CubeMover.enable (_m : CubeMover) : CubeMover := ⟨true⟩

/-- The call `disable()`. -/
def CubeMover.disable (_m : CubeMover) : CubeMover := ⟨false⟩

/-- Modelled from the spec: the worker pool, fire-and-forget; the solver only ever submits
`solveCube` jobs, so the pool is the number of jobs submitted so far. -/
structure ThreadPool where
  jobs : Nat
  deriving DecidableEq

/-- The call `addJob(bind(&CubeSolver::solveCube, this))`. -/
def ThreadPool.addJob (p : ThreadPool) : ThreadPool := ⟨p.jobs + 1⟩

/-- The fields of `CubeSolver`.  `MOVE` is `RubiksCube::MOVE`; `W` is the displayed cube
`RubiksCubeWorldObject` behind `pCube`; the queue is a list with its front at the head. -/
structure CubeSolver (MOVE W : Type) where
  pCube : W
  pThreadPool : ThreadPool
  pMover : CubeMover
  solving : Bool
  movesInQueue : Bool
  moveQueue : List MOVE
  moveTimer : Timer
  solveKey : Int
  deriving DecidableEq

/-- The constructor `CubeSolver::CubeSolver`. -/
def CubeSolver.init {MOVE W : Type} (pCube : W) (pMover : CubeMover)
    (pThreadPool : ThreadPool) (solveKey : Int) : CubeSolver MOVE W :=
  { pCube := pCube
    pThreadPool := pThreadPool
    pMover := pMover
    solving := false
    movesInQueue := false
    moveQueue := []
    moveTimer := Timer.init
    solveKey := solveKey }

/-- The method `CubeSolver::setSolving`. -/
def setSolving {MOVE W : Type} (s : CubeSolver MOVE W) (solving : Bool) : CubeSolver MOVE W :=
  let s := { s with solving := solving }
  if s.solving then { s with pMover := s.pMover.disable }
  else if !s.movesInQueue then { s with pMover := s.pMover.enable }
  else s

/-- The method `CubeSolver::onKeypress`.  `GLFW_PRESS` is the value of the GLFW constant of
that name. -/
def onKeypress {MOVE W : Type} (GLFW_PRESS : Int) (s : CubeSolver MOVE W)
    (key _scancode action _mods : Int) : CubeSolver MOVE W :=
  if action = GLFW_PRESS ∧ key = s.solveKey ∧ s.pMover.isEnabled = true then
    let s := setSolving s true
    { s with pThreadPool := s.pThreadPool.addJob }
  else s

/-- The method `CubeSolver::onPulse`, called when the timer's clock reads `now`.
`wmove` is `RubiksCubeWorldObject::move`.  The result is `none` when `front()` is called on
an empty queue. -/
def onPulse {MOVE W : Type} (wmove : W → MOVE → W) (s : CubeSolver MOVE W) (now : ℚ)
    (_elapsed : ℚ) : Option (CubeSolver MOVE W) :=
  if s.movesInQueue = true ∧
      (s.moveTimer.isStarted = false ∨ s.moveTimer.getElapsedSeconds now ≥ 1) then
    match s.moveQueue with
    | [] => none
    | move :: rest =>
      let s := { s with moveQueue := rest }
      let s := { s with pCube := wmove s.pCube move }
      let s := { s with movesInQueue := !s.moveQueue.isEmpty }
      let s := if s.movesInQueue = false ∧ s.solving = false then
        { s with pMover := s.pMover.enable } else s
      some { s with moveTimer := s.moveTimer.restart now }
  else some s

/-- The method `CubeSolver::processGoalMoves`; `cube` is the working copy and `rcMove` is
`RubiksCube::move`.  The goal and its number are only printed and are left out.  The
result holds the solver, the working copy, `allMoves` and `goalMoves` after the call. -/
def processGoalMoves {MOVE W RC : Type} (rcMove : RC → MOVE → RC) (s : CubeSolver MOVE W)
    (cube : RC) (allMoves goalMoves : List MOVE) :
    CubeSolver MOVE W × RC × List MOVE × List MOVE :=
  let allMoves := allMoves ++ goalMoves
  let sc := goalMoves.foldl
    (fun (sc : CubeSolver MOVE W × RC) move =>
      ({ sc.1 with moveQueue := sc.1.moveQueue ++ [move], movesInQueue := true },
        rcMove sc.2 move))
    (s, cube)
  (sc.1, sc.2, allMoves, [])

/-- The arguments of one `processGoalMoves` call: working copy, `allMoves`, `goalMoves`. -/
abbrev GoalCall (MOVE RC : Type) := RC × List MOVE × List MOVE

/-- Successive `processGoalMoves` calls, keeping the solver. -/
def enqueueAll {MOVE W RC : Type} (rcMove : RC → MOVE → RC) (s : CubeSolver MOVE W)
    (calls : List (GoalCall MOVE RC)) : CubeSolver MOVE W :=
  calls.foldl (fun s c => (processGoalMoves rcMove s c.1 c.2.1 c.2.2).1) s

/-- All the moves enqueued by a list of `processGoalMoves` calls, in order. -/
def enqueued {MOVE RC : Type} (calls : List (GoalCall MOVE RC)) : List MOVE :=
  (calls.map (fun c => c.2.2)).flatten

/-- Successive `onPulse` calls at the given clock readings (with their `elapsed`
arguments). -/
def pulses {MOVE W : Type} (wmove : W → MOVE → W) (s : CubeSolver MOVE W)
    (ticks : List (ℚ × ℚ)) : Option (CubeSolver MOVE W) :=
  ticks.foldlM (fun s t => onPulse wmove s t.1 t.2) s

/-- The pacing condition of `onPulse`: the timer is not started or reports at least one
second. -/
def pacingOk {MOVE W : Type} (s : CubeSolver MOVE W) (now : ℚ) : Prop :=
  s.moveTimer.isStarted = false ∨ s.moveTimer.getElapsedSeconds now ≥ 1

/-- Every call of a run of `onPulse` calls finds the pacing condition satisfied. -/
def allPaced {MOVE W : Type} (wmove : W → MOVE → W) :
    CubeSolver MOVE W → List (ℚ × ℚ) → Prop
  | _, [] => True
  | s, t :: ts =>
    pacingOk s t.1 ∧
      match onPulse wmove s t.1 t.2 with
      | some s' => allPaced wmove s' ts
      | none => True

/-! ## Runs of the solver and the order of effects of `onPulse` -/

/-- One call made on the solver: a key event, a pulse at a clock reading, `setSolving`, or
`processGoalMoves` on a working copy. -/
inductive Op (MOVE RC : Type) where
  | onKeypress (key scancode action mods : Int)
  | onPulse (now elapsed : ℚ)
  | setSolving (solving : Bool)
  | processGoalMoves (cube : RC) (allMoves goalMoves : List MOVE)

/-- The solver after one call; `none` when `onPulse` calls `front()` on an empty queue. -/
def step {MOVE W RC : Type} (GLFW_PRESS : Int) (wmove : W → MOVE → W)
    (rcMove : RC → MOVE → RC) (s : CubeSolver MOVE W) :
    Op MOVE RC → Option (CubeSolver MOVE W)
  | .onKeypress key scancode action mods =>
    some (busybin.onKeypress GLFW_PRESS s key scancode action mods)
  | .onPulse now elapsed => busybin.onPulse wmove s now elapsed
  | .setSolving solving => some (busybin.setSolving s solving)
  | .processGoalMoves cube allMoves goalMoves =>
    some (busybin.processGoalMoves rcMove s cube allMoves goalMoves).1

/-- The solver after a sequence of calls, in any interleaving. -/
def run {MOVE W RC : Type} (GLFW_PRESS : Int) (wmove : W → MOVE → W)
    (rcMove : RC → MOVE → RC) : CubeSolver MOVE W → List (Op MOVE RC) →
    Option (CubeSolver MOVE W)
  | s, [] => some s
  | s, op :: ops =>
    (step GLFW_PRESS wmove rcMove s op).bind (fun s' => run GLFW_PRESS wmove rcMove s' ops)

/-- The calls a solve allows: `processGoalMoves` is called only while `solving` is true. -/
def gated {MOVE W RC : Type} (s : CubeSolver MOVE W) : Op MOVE RC → Bool
  | .processGoalMoves _ _ _ => s.solving
  | _ => true

/-- The solver after a sequence of calls in which `processGoalMoves` is called only while
`solving` is true; `none` when some call is not allowed or `onPulse` fails. -/
def runGated {MOVE W RC : Type} (GLFW_PRESS : Int) (wmove : W → MOVE → W)
    (rcMove : RC → MOVE → RC) : CubeSolver MOVE W → List (Op MOVE RC) →
    Option (CubeSolver MOVE W)
  | s, [] => some s
  | s, op :: ops =>
    if gated s op = true then
      (step GLFW_PRESS wmove rcMove s op).bind
        (fun s' => runGated GLFW_PRESS wmove rcMove s' ops)
    else none

/-- A solve is in progress or its moves are still draining. -/
def busy {MOVE W : Type} (s : CubeSolver MOVE W) : Bool :=
  s.solving || !s.moveQueue.isEmpty

/-- Every call of a sequence of calls is made on a busy solver. -/
def staysBusy {MOVE W RC : Type} (GLFW_PRESS : Int) (wmove : W → MOVE → W)
    (rcMove : RC → MOVE → RC) : CubeSolver MOVE W → List (Op MOVE RC) → Bool
  | _, [] => true
  | s, op :: ops =>
    busy s &&
      match step GLFW_PRESS wmove rcMove s op with
      | some s' => staysBusy GLFW_PRESS wmove rcMove s' ops
      | none => true

/-- The queue-nonempty flag tells whether the queue is nonempty. -/
def flagAgrees {MOVE W : Type} (s : CubeSolver MOVE W) : Prop :=
  s.movesInQueue = !s.moveQueue.isEmpty

/-- The mover is enabled only when no solve is in progress and the queue is empty. -/
def gateClosed {MOVE W : Type} (s : CubeSolver MOVE W) : Prop :=
  s.pMover.isEnabled = true → s.solving = false ∧ s.moveQueue = []

/-- The effects of one `onPulse` call on the mutex, the queue, the displayed cube, the
flag, the mover and the timer. -/
inductive Effect (MOVE : Type) where
  | lock
  | front
  | pop
  | applyMove (move : MOVE)
  | setMovesInQueue (b : Bool)
  | enableMover
  | restartTimer
  | unlock
  deriving DecidableEq

/-- The effects of one `onPulse` call in the order of the statements of the source.  The
`lock_guard` is the first statement of the block of the `if` and releases the mutex where
that block ends, after the timer is restarted. -/
def onPulseEffects {MOVE W : Type} (s : CubeSolver MOVE W) (now : ℚ) (_elapsed : ℚ) :
    List (Effect MOVE) :=
  if s.movesInQueue = true ∧
      (s.moveTimer.isStarted = false ∨ s.moveTimer.getElapsedSeconds now ≥ 1) then
    match s.moveQueue with
    | [] => [.lock, .front]
    | move :: rest =>
      [.lock, .front, .pop, .applyMove move, .setMovesInQueue (!rest.isEmpty)] ++
        (if (!rest.isEmpty) = false ∧ s.solving = false then [.enableMover] else []) ++
        [.restartTimer, .unlock]
  else []

/-- What one effect does to the fields of the solver at clock reading `now`; `none` for
`front()` or `pop()` on an empty queue. -/
def Effect.run {MOVE W : Type} (wmove : W → MOVE → W) (now : ℚ) (s : CubeSolver MOVE W) :
    Effect MOVE → Option (CubeSolver MOVE W)
  | .lock => some s
  | .front => if s.moveQueue.isEmpty then none else some s
  | .pop =>
    match s.moveQueue with
    | [] => none
    | _ :: rest => some { s with moveQueue := rest }
  | .applyMove move => some { s with pCube := wmove s.pCube move }
  | .setMovesInQueue b => some { s with movesInQueue := b }
  | .enableMover => some { s with pMover := s.pMover.enable }
  | .restartTimer => some { s with moveTimer := s.moveTimer.restart now }
  | .unlock => some s

/-- The effects that happen while the mutex is held; the first argument says whether it
is held at the start. -/
def heldEffects {MOVE : Type} : Bool → List (Effect MOVE) → List (Effect MOVE)
  | _, [] => []
  | _, .lock :: es => heldEffects true es
  | _, .unlock :: es => heldEffects false es
  | held, e :: es => if held then e :: heldEffects held es else heldEffects held es

/-! ## Lemmas: `simplifyMoves` on well-formed tokens is `simplify` -/

theorem replace_succ (fuel : Nat) (needle haystack w : List Char) :
    replace (fuel + 1) needle haystack w =
      match replaceStep needle haystack w with
      | none => some haystack
      | some h => replace fuel needle h w := by
  simp only [replace, replaceStep]
  cases find haystack needle <;> rfl

theorem replaceStep_nil (c : Char) (t w : List Char) : replaceStep (c :: t) [] w = none := by
  simp [replaceStep, find]

theorem replaceStep_cons (needle : List Char) (c : Char) (cs w : List Char) :
    replaceStep needle (c :: cs) w =
      if needle.isPrefixOf (c :: cs) then some (w ++ (c :: cs).drop needle.length)
      else (replaceStep needle cs w).map (c :: ·) := by
  unfold replaceStep
  rw [find]
  split
  · simp [strReplace]
  · cases find cs needle with
    | none => simp
    | some pos =>
      simp only [Option.map_some', strReplace, List.take_succ_cons, List.cons_append]
      congr 3
      rw [Nat.add_right_comm, List.drop_succ_cons]

theorem replaceStep_skip (h : Char) (t w : List Char) (cs rest : List Char)
    (hcs : ∀ c ∈ cs, c ≠ h) :
    replaceStep (h :: t) (cs ++ rest) w = (replaceStep (h :: t) rest w).map (cs ++ ·) := by
  induction cs with
  | nil => simp
  | cons c cs ih =>
    have hc : (h == c) = false := by
      have := hcs c (by simp)
      simpa using fun e => this e.symm
    rw [List.cons_append, replaceStep_cons, List.isPrefixOf_cons₂, hc]
    simp only [Bool.false_and, Bool.false_eq_true, if_false]
    rw [ih (fun c hc => hcs c (by simp [hc]))]
    cases replaceStep (h :: t) rest w <;> simp

theorem isPrefixOf_word (a b X Y : List Char) (ha : ' ' ∉ a) (hb : ' ' ∉ b) :
    (a ++ ' ' :: X).isPrefixOf (b ++ ' ' :: Y) = (decide (a = b) && X.isPrefixOf Y) := by
  induction a generalizing b with
  | nil =>
    cases b with
    | nil => simp
    | cons d b =>
      have : (' ' == d) = false := by
        have : ' ' ≠ d := fun e => hb (by rw [e]; exact List.mem_cons_self _ _)
        simpa using this
      simp [List.isPrefixOf_cons₂, this]
  | cons c a ih =>
    cases b with
    | nil =>
      have : (c == ' ') = false := by
        have : c ≠ ' ' := fun e => ha (by rw [e]; exact List.mem_cons_self _ _)
        simpa using this
      simp [List.isPrefixOf_cons₂, this]
    | cons d b =>
      have ha' : ' ' ∉ a := fun h => ha (by simp [h])
      have hb' : ' ' ∉ b := fun h => hb (by simp [h])
      simp only [List.cons_append, List.isPrefixOf_cons₂, ih b ha' hb']
      by_cases hcd : c = d
      · subst hcd; simp
      · simp [hcd]

theorem token_no_blank (m : Move) : ' ' ∉ m.token := by
  rcases m with ⟨f, t⟩
  cases f <;> cases t <;> decide

theorem token_inj (m m' : Move) : m.token = m'.token ↔ m = m' := by
  constructor
  · rcases m with ⟨f, t⟩
    rcases m' with ⟨f', t'⟩
    cases f <;> cases f' <;> cases t <;> cases t' <;> decide
  · rintro rfl; rfl

theorem letter_not_in_tail (f : Face) (m : Move) :
    ∀ c ∈ m.turn.suffix ++ [' '], c ≠ f.letter := by
  rcases m with ⟨f', t⟩
  show ∀ c ∈ t.suffix ++ [' '], c ≠ f.letter
  cases f <;> cases t <;> decide

theorem letter_ne_blank (f : Face) : (f.letter == ' ') = false := by
  cases f <;> decide

theorem render_append (xs ys : List Item) : render (xs ++ ys) = render xs ++ render ys := by
  induction xs with
  | nil => rfl
  | cons i xs ih => simp [render, ih]

theorem render_tok (m : Move) (is : List Item) :
    render (.tok m :: is) = m.token ++ ' ' :: render is := by
  simp [render, Item.text]

theorem render_gap (is : List Item) : render (.gap :: is) = ' ' :: render is := by
  simp [render, Item.text]

theorem startsWith_render (ps : List Move) (items : List Item) :
    (render (tokPat ps)).isPrefixOf (render items) = startsWith items (tokPat ps) := by
  induction ps generalizing items with
  | nil => simp [tokPat, render, startsWith]
  | cons p ps ih =>
    have hp : tokPat (p :: ps) = .tok p :: tokPat ps := rfl
    rw [hp, render_tok]
    cases items with
    | nil => simp [render, startsWith, Move.token]
    | cons i is =>
      cases i with
      | gap =>
        rw [render_gap]
        simp [Move.token, List.isPrefixOf_cons₂, letter_ne_blank, startsWith]
      | tok m =>
        rw [render_tok, isPrefixOf_word _ _ _ _ (token_no_blank p) (token_no_blank m), ih]
        simp only [startsWith]
        congr 1
        simp only [token_inj, Item.tok.injEq, decide_eq_decide]
        exact eq_comm

theorem startsWith_split (pat items : List Item) (h : startsWith items pat = true) :
    items = pat ++ items.drop pat.length := by
  induction pat generalizing items with
  | nil => simp
  | cons p ps ih =>
    cases items with
    | nil => simp [startsWith] at h
    | cons i is =>
      simp only [startsWith, Bool.and_eq_true, decide_eq_true_eq] at h
      obtain ⟨rfl, h2⟩ := h
      simp only [List.length_cons, List.drop_succ_cons, List.cons_append, List.cons.injEq,
        true_and]
      exact ih is h2

theorem render_drop (pat items : List Item) (h : startsWith items pat = true) :
    (render items).drop (render pat).length = render (items.drop pat.length) := by
  conv_lhs => rw [startsWith_split pat items h, render_append]
  simp

theorem replaceStep_render (p : Move) (ps : List Move) (r items : List Item) :
    replaceStep (render (tokPat (p :: ps))) (render items) (render r) =
      (itemRewrite (tokPat (p :: ps)) r items).map render := by
  induction items with
  | nil =>
    simp only [render, itemRewrite, startsWith, tokPat, List.map_cons]
    simp [Item.text, Move.token, replaceStep_nil]
  | cons i is ih =>
    rw [itemRewrite]
    by_cases hs : startsWith (i :: is) (tokPat (p :: ps)) = true
    · rw [if_pos hs]
      have hc : render (i :: is) ≠ [] := by
        cases i <;> simp [render, Item.text]
      obtain ⟨c, cs, hcs⟩ := List.exists_cons_of_ne_nil hc
      rw [hcs, replaceStep_cons, ← hcs, startsWith_render, if_pos hs, render_drop _ _ hs]
      simp [render_append]
    · rw [if_neg hs]
      have hpre : (render (tokPat (p :: ps))).isPrefixOf (render (i :: is)) = false := by
        rw [startsWith_render]; simpa using hs
      have hhead : render (tokPat (p :: ps)) =
          p.face.letter :: (p.turn.suffix ++ ' ' :: render (tokPat ps)) := by
        simp [tokPat, render, Item.text, Move.token]
      cases i with
      | gap =>
        rw [render_gap] at hpre ⊢
        rw [replaceStep_cons, hpre, ih]
        cases itemRewrite (tokPat (p :: ps)) r is <;> simp [render_gap]
      | tok m =>
        rw [render_tok] at hpre ⊢
        have hm : m.token ++ ' ' :: render is =
            m.face.letter :: ((m.turn.suffix ++ [' ']) ++ render is) := by
          simp [Move.token]
        rw [hm] at hpre ⊢
        rw [replaceStep_cons, hpre, hhead,
          replaceStep_skip _ _ _ _ _ (letter_not_in_tail p.face m), ← hhead, ih]
        cases itemRewrite (tokPat (p :: ps)) r is <;> simp [render_tok, Move.token]

theorem isTokPat_allTok (pat : List Item) (h : isTokPat pat = true) :
    ∃ ms : List Move, pat = tokPat ms := by
  induction pat with
  | nil => exact ⟨[], rfl⟩
  | cons i is ih =>
    cases i with
    | gap => simp [isTokPat] at h
    | tok m =>
      cases is with
      | nil => exact ⟨[m], rfl⟩
      | cons j js =>
        simp only [isTokPat] at h
        obtain ⟨ms, hms⟩ := ih h
        exact ⟨m :: ms, by simp [tokPat, hms]⟩

theorem isTokPat_eq (pat : List Item) (h : isTokPat pat = true) :
    ∃ p ps, pat = tokPat (p :: ps) := by
  obtain ⟨ms, rfl⟩ := isTokPat_allTok pat h
  cases ms with
  | nil => simp [tokPat, isTokPat] at h
  | cons p ps => exact ⟨p, ps, rfl⟩

theorem itemCalls_good : ∀ c ∈ itemCalls, goodCall c = true := by decide

theorem rewriteCalls_eq : rewriteCalls = itemCalls.map (fun c => (render c.1, render c.2)) := by
  decide

theorem itemRewrite_length (pat r items items' : List Item)
    (h : itemRewrite pat r items = some items') :
    items'.length + pat.length = items.length + r.length := by
  induction items generalizing items' with
  | nil =>
    rw [itemRewrite] at h
    split at h
    · cases pat with
      | nil => simp at h; subst h; simp
      | cons p ps => simp [startsWith] at *
    · simp at h
  | cons i is ih =>
    rw [itemRewrite] at h
    split at h
    · next hs =>
      simp only [Option.some.injEq] at h
      subst h
      have := congrArg List.length (startsWith_split pat (i :: is) hs)
      simp only [List.length_append] at this ⊢
      omega
    · cases hr : itemRewrite pat r is with
      | none => simp [hr] at h
      | some is' =>
        simp only [hr, Option.map_some', Option.some.injEq] at h
        subst h
        have := ih is' hr
        simp only [List.length_cons]
        omega

theorem itemReplace_length_le (pat r : List Item) (hlt : r.length ≤ pat.length) (n : Nat)
    (items : List Item) : (itemReplace pat r n items).length ≤ items.length := by
  induction n generalizing items with
  | zero => simp [itemReplace]
  | succ n ih =>
    rw [itemReplace]
    cases hr : itemRewrite pat r items with
    | none => simp
    | some items' =>
      have := itemRewrite_length pat r items items' hr
      have := ih items'
      simp only
      omega

theorem replace_render (c : List Item × List Item) (hc : goodCall c = true) (n fuel : Nat)
    (items : List Item) (hn : items.length ≤ n) (hf : items.length < fuel) :
    replace fuel (render c.1) (render items) (render c.2) =
      some (render (itemReplace c.1 c.2 n items)) := by
  obtain ⟨pat, r⟩ := c
  simp only [goodCall, Bool.and_eq_true, decide_eq_true_eq] at hc
  obtain ⟨hp, hlt⟩ := hc
  obtain ⟨p, ps, rfl⟩ := isTokPat_eq pat hp
  simp only
  induction n generalizing items fuel with
  | zero =>
    have : items = [] := List.length_eq_zero.mp (Nat.le_zero.mp hn)
    subst this
    obtain ⟨f, rfl⟩ : ∃ f, fuel = f + 1 := ⟨fuel - 1, by omega⟩
    rw [replace_succ, replaceStep_render]
    simp [itemRewrite, tokPat, startsWith, itemReplace]
  | succ n ih =>
    obtain ⟨f, rfl⟩ : ∃ f, fuel = f + 1 := ⟨fuel - 1, by omega⟩
    rw [replace_succ, replaceStep_render, itemReplace]
    cases hr : itemRewrite (tokPat (p :: ps)) r items with
    | none => simp
    | some items' =>
      have := itemRewrite_length _ _ _ _ hr
      simp only [Option.map_some']
      exact ih f items' (by omega) (by omega)

theorem foldlM_render (cs : List (List Item × List Item)) (hcs : ∀ c ∈ cs, goodCall c = true)
    (n fuel : Nat) (items : List Item) (hn : items.length ≤ n) (hf : n < fuel) :
    (cs.map (fun c => (render c.1, render c.2))).foldlM
        (fun movesStr call => replace fuel call.1 movesStr call.2) (render items) =
      some (render (cs.foldl (fun items c => itemReplace c.1 c.2 n items) items)) := by
  induction cs generalizing items with
  | nil => simp
  | cons c cs ih =>
    have hc := hcs c (by simp)
    simp only [List.map_cons, List.foldlM_cons, List.foldl_cons]
    rw [replace_render c hc n fuel items hn (by omega)]
    simp only [Option.some_bind, Option.bind_eq_bind]
    apply ih (fun c' h => hcs c' (by simp [h]))
    have hle : c.2.length ≤ c.1.length := by
      simp only [goodCall, Bool.and_eq_true, decide_eq_true_eq] at hc
      omega
    exact le_trans (itemReplace_length_le c.1 c.2 hle n items) hn

theorem joinMoves_render (ms : List Move) :
    joinMoves (ms.map Move.token) = render (tokPat ms) := by
  have key : ∀ (acc : List Char),
      (ms.map Move.token).foldl (fun movesStr move => movesStr ++ (move ++ " ".toList)) acc =
        acc ++ render (tokPat ms) := by
    induction ms with
    | nil => intro acc; simp [tokPat, render]
    | cons m ms ih =>
      intro acc
      simp only [List.map_cons, List.foldl_cons, ih]
      simp [tokPat, render, Item.text]
  simpa [joinMoves] using key []

theorem token_no_space (m : Move) : ∀ c ∈ m.token, isspace c = false := by
  rcases m with ⟨f, t⟩
  cases f <;> cases t <;> decide

theorem readWords_word (w : List Char) (hw : ∀ c ∈ w, isspace c = false)
    (cur rest : List Char) :
    readWords (w ++ ' ' :: rest) cur =
      if (cur ++ w).isEmpty then readWords rest [] else (cur ++ w) :: readWords rest [] := by
  induction w generalizing cur with
  | nil =>
    have : isspace ' ' = true := by decide
    simp [readWords, this]
  | cons c w ih =>
    have hc : isspace c = false := hw c (by simp)
    rw [List.cons_append, readWords]
    simp only [hc, Bool.false_eq_true, if_false]
    rw [ih (fun c h => hw c (by simp [h]))]
    simp

theorem readWords_render (items : List Item) :
    readWords (render items) [] = (toks items).map Move.token := by
  induction items with
  | nil => simp [render, readWords, toks]
  | cons i is ih =>
    cases i with
    | gap =>
      have : isspace ' ' = true := by decide
      simp [render_gap, readWords, this, toks, ih]
    | tok m =>
      rw [render_tok, readWords_word _ (token_no_space m)]
      simp [Move.token, toks, ih]

/-- On well-formed tokens and with a budget above the number of moves, `simplifyMoves`
returns, and what it returns is the text of `simplify`. -/
theorem simplifyMoves_eq (ms : List Move) (fuel : Nat) (hf : ms.length < fuel) :
    simplifyMoves fuel (ms.map Move.token) = some ((simplify ms).map Move.token) := by
  unfold simplifyMoves
  rw [rewriteCalls_eq, joinMoves_render,
    foldlM_render itemCalls itemCalls_good ms.length fuel (tokPat ms) (by simp [tokPat]) hf]
  simp [readWords_render, simplify, itemSimplify, tokPat]

theorem toks_append (xs ys : List Item) : toks (xs ++ ys) = toks xs ++ toks ys := by
  induction xs with
  | nil => rfl
  | cons i xs ih => cases i <;> simp [toks, ih]

theorem toks_tokPat (ms : List Move) : toks (tokPat ms) = ms := by
  induction ms with
  | nil => rfl
  | cons m ms ih => simpa [tokPat, toks] using ih

/-- A successful rewrite replaces one occurrence of the pattern. -/
theorem itemRewrite_some (pat r items items' : List Item)
    (h : itemRewrite pat r items = some items') :
    ∃ pre post, items = pre ++ pat ++ post ∧ items' = pre ++ r ++ post := by
  induction items generalizing items' with
  | nil =>
    rw [itemRewrite] at h
    split at h
    · cases pat with
      | nil => exact ⟨[], [], by simp, by simpa using h.symm⟩
      | cons p ps => simp [startsWith] at *
    · simp at h
  | cons i is ih =>
    rw [itemRewrite] at h
    split at h
    · next hs =>
      simp only [Option.some.injEq] at h
      exact ⟨[], (i :: is).drop pat.length, by simpa using startsWith_split pat _ hs,
        by simpa using h.symm⟩
    · cases hr : itemRewrite pat r is with
      | none => simp [hr] at h
      | some is' =>
        simp only [hr, Option.map_some', Option.some.injEq] at h
        obtain ⟨pre, post, h1, h2⟩ := ih is' hr
        exact ⟨i :: pre, post, by simp [h1], by simp [← h, h2]⟩

theorem movesProd_append {G : Type} [Group G] (g : Face → G) (xs ys : List Move) :
    movesProd g (xs ++ ys) = movesProd g xs * movesProd g ys := by
  simp [movesProd]

theorem itemReplace_prod {G : Type} [Group G] (g : Face → G) (pat r : List Item)
    (hpr : movesProd g (toks pat) = movesProd g (toks r)) (n : Nat) (items : List Item) :
    movesProd g (toks (itemReplace pat r n items)) = movesProd g (toks items) := by
  induction n generalizing items with
  | zero => rfl
  | succ n ih =>
    rw [itemReplace]
    cases hr : itemRewrite pat r items with
    | none => rfl
    | some items' =>
      obtain ⟨pre, post, rfl, rfl⟩ := itemRewrite_some _ _ _ _ hr
      simp only [ih, toks_append, movesProd_append, hpr]

theorem itemCalls_prod {G : Type} [Group G] (g : Face → G) (h4 : ∀ f, g f ^ 4 = 1) :
    ∀ c ∈ itemCalls, movesProd g (toks c.1) = movesProd g (toks c.2) := by
  have e1 : ∀ f, g f ^ 2 * g f ^ 2 = 1 := fun f => by rw [← pow_add]; exact h4 f
  have e2 : ∀ f, g f * g f ^ 2 = (g f)⁻¹ := fun f => by
    rw [eq_inv_iff_mul_eq_one]
    have := h4 f
    simpa [pow_succ, mul_assoc] using this
  have e3 : ∀ f, g f * g f = g f ^ 2 := fun f => (pow_two _).symm
  simp [itemCalls, movesProd, toks, Move.interp, Face.q, Face.inv, Face.h, e1, e2, e3]

theorem foldl_prod {G : Type} [Group G] (g : Face → G) (cs : List (List Item × List Item))
    (hcs : ∀ c ∈ cs, movesProd g (toks c.1) = movesProd g (toks c.2)) (n : Nat)
    (items : List Item) :
    movesProd g (toks (cs.foldl (fun items c => itemReplace c.1 c.2 n items) items)) =
      movesProd g (toks items) := by
  induction cs generalizing items with
  | nil => rfl
  | cons c cs ih =>
    rw [List.foldl_cons, ih (fun c' h => hcs c' (by simp [h])),
      itemReplace_prod g c.1 c.2 (hcs c (by simp))]

theorem simplify_prod {G : Type} [Group G] (g : Face → G) (h4 : ∀ f, g f ^ 4 = 1)
    (ms : List Move) : movesProd g (simplify ms) = movesProd g ms := by
  unfold simplify itemSimplify
  rw [foldl_prod g itemCalls (itemCalls_prod g h4)]
  exact congrArg _ (toks_tokPat ms)

/-- The number of tokens never grows in a rewrite loop whose replacement has no more
tokens than its pattern. -/
theorem itemReplace_toks_le (pat r : List Item) (hpr : (toks r).length ≤ (toks pat).length)
    (n : Nat) (items : List Item) :
    (toks (itemReplace pat r n items)).length ≤ (toks items).length := by
  induction n generalizing items with
  | zero => exact le_refl _
  | succ n ih =>
    rw [itemReplace]
    cases hr : itemRewrite pat r items with
    | none => exact le_refl _
    | some items' =>
      obtain ⟨pre, post, rfl, rfl⟩ := itemRewrite_some _ _ _ _ hr
      refine le_trans (ih _) ?_
      simp only [toks_append, List.length_append]
      omega

theorem itemCalls_toks_lt : ∀ c ∈ itemCalls, (toks c.2).length < (toks c.1).length := by
  decide

theorem foldl_toks_le (cs : List (List Item × List Item))
    (hcs : ∀ c ∈ cs, (toks c.2).length < (toks c.1).length) (n : Nat) (items : List Item) :
    (toks (cs.foldl (fun items c => itemReplace c.1 c.2 n items) items)).length ≤
      (toks items).length := by
  induction cs generalizing items with
  | nil => exact le_refl _
  | cons c cs ih =>
    rw [List.foldl_cons]
    exact le_trans (ih (fun c' h => hcs c' (by simp [h])) _)
      (itemReplace_toks_le c.1 c.2 (le_of_lt (hcs c (by simp))) n items)

theorem simplify_length_le (ms : List Move) : (simplify ms).length ≤ ms.length := by
  unfold simplify itemSimplify
  refine le_trans (foldl_toks_le itemCalls itemCalls_toks_lt _ _) ?_
  exact le_of_eq (congrArg _ (toks_tokPat ms))

theorem itemCalls_head : ∀ c ∈ itemCalls, callHead c = true := by decide

theorem rulePair_call (a b : Move) (h : rulePair a b = true) :
    ∃ c ∈ itemCalls, c.1 = [Item.tok a, Item.tok b] := by
  rcases a with ⟨fa, ta⟩
  rcases b with ⟨fb, tb⟩
  revert h
  cases fa <;> cases fb <;> cases ta <;> cases tb <;> decide

theorem noRulePair_tail (x : Move) (l : List Move) (h : noRulePair (x :: l) = true) :
    noRulePair l = true := by
  cases l with
  | nil => rfl
  | cons y l => simp only [noRulePair, Bool.and_eq_true] at h; exact h.2

theorem noRulePair_mid (pre : List Move) (a b : Move) (post : List Move)
    (h : noRulePair (pre ++ a :: b :: post) = true) : rulePair a b = false := by
  induction pre with
  | nil => simp only [List.nil_append, noRulePair, Bool.and_eq_true] at h; simpa using h.1
  | cons x pre ih => exact ih (noRulePair_tail x _ h)

theorem noRulePair_false (ms : List Move) (h : noRulePair ms = false) :
    ∃ pre a b post, ms = pre ++ a :: b :: post ∧ rulePair a b = true := by
  induction ms with
  | nil => simp [noRulePair] at h
  | cons x l ih =>
    cases l with
    | nil => simp [noRulePair] at h
    | cons y l =>
      by_cases hxy : rulePair x y = true
      · exact ⟨[], x, y, l, rfl, hxy⟩
      · simp only [noRulePair, hxy, Bool.not_false, Bool.true_and] at h
        obtain ⟨pre, a, b, post, h1, h2⟩ := ih h
        exact ⟨x :: pre, a, b, post, by simp [h1], h2⟩

theorem callHead_eq (c : List Item × List Item) (hc : callHead c = true) :
    ∃ a b rest, c.1 = .tok a :: .tok b :: rest ∧ rulePair a b = true := by
  unfold callHead at hc
  split at hc
  · next a b rest heq => exact ⟨a, b, rest, heq, hc⟩
  · exact absurd hc Bool.false_ne_true

theorem itemRewrite_none_of_noRulePair (ms : List Move) (h : noRulePair ms = true)
    (c : List Item × List Item) (hc : callHead c = true) :
    itemRewrite c.1 c.2 (tokPat ms) = none := by
  cases hr : itemRewrite c.1 c.2 (tokPat ms) with
  | none => rfl
  | some items' =>
    exfalso
    obtain ⟨pre, post, h1, -⟩ := itemRewrite_some _ _ _ _ hr
    obtain ⟨a, b, rest, hpat, hab⟩ := callHead_eq c hc
    have h2 := congrArg toks h1
    rw [toks_tokPat, hpat] at h2
    simp only [toks_append, toks, List.append_assoc, List.cons_append] at h2
    rw [h2] at h
    have := noRulePair_mid _ _ _ _ h
    rw [this] at hab
    exact Bool.false_ne_true hab

theorem itemReplace_of_none (pat r : List Item) (n : Nat) (items : List Item)
    (h : itemRewrite pat r items = none) : itemReplace pat r n items = items := by
  cases n with
  | zero => rfl
  | succ n => rw [itemReplace, h]

theorem foldl_of_none (cs : List (List Item × List Item)) (n : Nat) (items : List Item)
    (h : ∀ c ∈ cs, itemRewrite c.1 c.2 items = none) :
    cs.foldl (fun items c => itemReplace c.1 c.2 n items) items = items := by
  induction cs with
  | nil => rfl
  | cons c cs ih =>
    rw [List.foldl_cons, itemReplace_of_none _ _ _ _ (h c (by simp))]
    exact ih (fun c' hc' => h c' (by simp [hc']))

/-- A sequence without a `rulePair` is left as it is. -/
theorem simplify_of_noRulePair (ms : List Move) (h : noRulePair ms = true) :
    simplify ms = ms := by
  unfold simplify itemSimplify
  rw [show ms.map Item.tok = tokPat ms from rfl,
    foldl_of_none itemCalls _ _
      (fun c hc => itemRewrite_none_of_noRulePair ms h c (itemCalls_head c hc)),
    toks_tokPat]

theorem startsWith_append (pat post : List Item) : startsWith (pat ++ post) pat = true := by
  induction pat with
  | nil => cases post <;> rfl
  | cons p ps ih => simp [startsWith, ih]

theorem itemRewrite_occ (pat r pre post : List Item) :
    itemRewrite pat r (pre ++ pat ++ post) ≠ none := by
  induction pre with
  | nil =>
    have hs := startsWith_append pat post
    rw [List.nil_append]
    cases hl : pat ++ post with
    | nil => rw [hl] at hs; simp [itemRewrite, hs]
    | cons i is => rw [hl] at hs; simp [itemRewrite, hs]
  | cons i pre ih =>
    simp only [List.cons_append, List.append_assoc] at ih ⊢
    rw [itemRewrite]
    split
    · simp
    · cases hr : itemRewrite pat r (pre ++ (pat ++ post)) with
      | none => exact absurd hr ih
      | some x => simp

theorem itemReplace_toks_lt (pat r : List Item) (hpr : (toks r).length < (toks pat).length)
    (n : Nat) (items : List Item) (h : itemRewrite pat r items ≠ none) :
    (toks (itemReplace pat r (n + 1) items)).length < (toks items).length := by
  rw [itemReplace]
  cases hr : itemRewrite pat r items with
  | none => exact absurd hr h
  | some items' =>
    obtain ⟨pre, post, rfl, rfl⟩ := itemRewrite_some _ _ _ _ hr
    refine lt_of_le_of_lt (itemReplace_toks_le pat r (le_of_lt hpr) n _) ?_
    simp only [toks_append, List.length_append]
    omega

theorem foldl_toks_lt (cs : List (List Item × List Item))
    (hcs : ∀ c ∈ cs, (toks c.2).length < (toks c.1).length) (n : Nat) (items : List Item)
    (h : ∃ c ∈ cs, itemRewrite c.1 c.2 items ≠ none) :
    (toks (cs.foldl (fun items c => itemReplace c.1 c.2 (n + 1) items) items)).length <
      (toks items).length := by
  induction cs with
  | nil => simp at h
  | cons c cs ih =>
    rw [List.foldl_cons]
    by_cases hc : itemRewrite c.1 c.2 items = none
    · rw [itemReplace_of_none _ _ _ _ hc]
      obtain ⟨c', hc', hne⟩ := h
      rcases List.mem_cons.mp hc' with rfl | hmem
      · exact absurd hc hne
      · exact ih (fun c'' h'' => hcs c'' (by simp [h''])) ⟨c', hmem, hne⟩
    · exact lt_of_le_of_lt (foldl_toks_le cs (fun c'' h'' => hcs c'' (by simp [h''])) _ _)
        (itemReplace_toks_lt c.1 c.2 (hcs c (by simp)) n items hc)

/-- A sequence is left as it is exactly when it has no `rulePair`. -/
theorem simplify_eq_self_iff (ms : List Move) : simplify ms = ms ↔ noRulePair ms = true := by
  constructor
  · intro h
    by_contra hn
    obtain ⟨pre, a, b, post, rfl, hab⟩ := noRulePair_false ms (by simpa using hn)
    obtain ⟨c, hc, hc1⟩ := rulePair_call a b hab
    have hocc : itemRewrite c.1 c.2 (tokPat (pre ++ a :: b :: post)) ≠ none := by
      have : tokPat (pre ++ a :: b :: post) = tokPat pre ++ c.1 ++ tokPat post := by
        simp [tokPat, hc1]
      rw [this]
      exact itemRewrite_occ _ _ _ _
    obtain ⟨k, hk⟩ : ∃ k, (pre ++ a :: b :: post).length = k + 1 :=
      ⟨(pre ++ a :: b :: post).length - 1, by simp; omega⟩
    have hlt := foldl_toks_lt itemCalls itemCalls_toks_lt k _ ⟨c, hc, hocc⟩
    rw [toks_tokPat, ← hk] at hlt
    have hlen := congrArg List.length h
    unfold simplify itemSimplify at hlen
    have e : List.map Item.tok (pre ++ a :: b :: post) = tokPat (pre ++ a :: b :: post) := rfl
    rw [e] at hlen
    omega
  · exact simplify_of_noRulePair ms

theorem noRulePair_of_noSameFace (ms : List Move) (h : noSameFace ms = true) :
    noRulePair ms = true := by
  induction ms with
  | nil => rfl
  | cons x l ih =>
    cases l with
    | nil => rfl
    | cons y l =>
      simp only [noSameFace, Bool.and_eq_true, decide_eq_true_eq] at h
      simp only [noRulePair, Bool.and_eq_true, Bool.not_eq_true']
      refine ⟨?_, ih h.2⟩
      simp [rulePair, h.1]

/-! ## Claims about `simplifyMoves` -/

/-- Claim C1, counterexample: `simplifyMoves` is not idempotent.  It turns `U U U U` into
`U' U` (the triple is rewritten first), and it turns `U' U` into the empty sequence. -/
theorem simplifyMoves_not_idempotent :
    simplifyMoves 5 (["U", "U", "U", "U"].map String.toList) =
        some (["U'", "U"].map String.toList) ∧
      simplifyMoves 5 (["U'", "U"].map String.toList) = some [] ∧
      simplifyMoves 5 (["U'", "U"].map String.toList) ≠
        some (["U'", "U"].map String.toList) := by
  decide

/-- Claim C1, amended: for every sequence of well-formed tokens, `simplifyMoves` returns a
sequence `r` of well-formed tokens, and `simplifyMoves` applied to `r` returns `r` again
exactly when no two adjacent tokens of `r` are `X2 X2`, `X X'`, `X' X` or `X X` for one
face `X`. -/
theorem simplifyMoves_idempotent_iff (ms : List Move) (fuel : Nat) (hf : ms.length < fuel) :
    ∃ r : List Move,
      simplifyMoves fuel (ms.map Move.token) = some (r.map Move.token) ∧
      (simplifyMoves fuel (r.map Move.token) = some (r.map Move.token) ↔
        noRulePair r = true) := by
  refine ⟨simplify ms, simplifyMoves_eq ms fuel hf, ?_⟩
  have hlen : (simplify ms).length < fuel := lt_of_le_of_lt (simplify_length_le ms) hf
  rw [simplifyMoves_eq (simplify ms) fuel hlen, ← simplify_eq_self_iff]
  constructor
  · intro h
    have h' := Option.some.inj h
    exact List.map_injective_iff.mpr (fun a b hab => (token_inj a b).mp hab) h'
  · intro h
    rw [h]

/-- Claim C1, amended, at `U U` with budget 3. -/
theorem simplifyMoves_idempotent_iff_witness :
    ∃ r : List Move,
      simplifyMoves 3 ([Face.U.q, Face.U.q].map Move.token) = some (r.map Move.token) ∧
      (simplifyMoves 3 (r.map Move.token) = some (r.map Move.token) ↔
        noRulePair r = true) :=
  simplifyMoves_idempotent_iff [Face.U.q, Face.U.q] 3 (by decide)

/-- Claim C2, evaluated on every face: three equal quarter turns become the inverse quarter
turn for `U`, `L`, `F`, `R` and `B`, but `D D D` becomes `D2 D`: the source has no call
for `D D D` (the call for `B B B` stands twice), so only the pair rule applies. -/
theorem simplifyMoves_triple (X : Face) :
    simplifyMoves 4 [X.q.token, X.q.token, X.q.token] =
      some (if X = Face.D then [Face.D.h.token, Face.D.q.token] else [X.inv.token]) := by
  cases X <;> decide

/-- Claim C3: for every face `X`, `simplifyMoves` returns the empty sequence on `X X'`, on
`X' X` and on `X2 X2`, and returns `X2` on `X X`. -/
theorem simplifyMoves_cancellation_pairs (X : Face) (fuel : Nat) (hf : 2 < fuel) :
    simplifyMoves fuel [X.q.token, X.inv.token] = some [] ∧
      simplifyMoves fuel [X.inv.token, X.q.token] = some [] ∧
      simplifyMoves fuel [X.h.token, X.h.token] = some [] ∧
      simplifyMoves fuel [X.q.token, X.q.token] = some [X.h.token] := by
  have e1 := simplifyMoves_eq [X.q, X.inv] fuel hf
  have e2 := simplifyMoves_eq [X.inv, X.q] fuel hf
  have e3 := simplifyMoves_eq [X.h, X.h] fuel hf
  have e4 := simplifyMoves_eq [X.q, X.q] fuel hf
  have s1 : simplify [X.q, X.inv] = [] := by cases X <;> decide
  have s2 : simplify [X.inv, X.q] = [] := by cases X <;> decide
  have s3 : simplify [X.h, X.h] = [] := by cases X <;> decide
  have s4 : simplify [X.q, X.q] = [X.h] := by cases X <;> decide
  rw [s1] at e1
  rw [s2] at e2
  rw [s3] at e3
  rw [s4] at e4
  exact ⟨e1, e2, e3, e4⟩

/-- Claim C3 at face `D` with budget 3. -/
theorem simplifyMoves_cancellation_pairs_witness :
    simplifyMoves 3 [Face.D.q.token, Face.D.inv.token] = some [] ∧
      simplifyMoves 3 [Face.D.inv.token, Face.D.q.token] = some [] ∧
      simplifyMoves 3 [Face.D.h.token, Face.D.h.token] = some [] ∧
      simplifyMoves 3 [Face.D.q.token, Face.D.q.token] = some [Face.D.h.token] :=
  simplifyMoves_cancellation_pairs Face.D 3 (by decide)

/-- Claim C4: for every sequence of well-formed tokens and every group with six elements
whose fourth powers are one, `simplifyMoves` returns a sequence of well-formed tokens whose
ordered product equals the ordered product of the input. -/
theorem simplifyMoves_equivalent {G : Type} [Group G] (g : Face → G)
    (h4 : ∀ f, g f ^ 4 = 1) (ms : List Move) (fuel : Nat) (hf : ms.length < fuel) :
    ∃ r : List Move,
      simplifyMoves fuel (ms.map Move.token) = some (r.map Move.token) ∧
      movesProd g r = movesProd g ms :=
  ⟨simplify ms, simplifyMoves_eq ms fuel hf, simplify_prod g h4 ms⟩

/-- Claim C4 in the cyclic group of order four, on `U U L'` with budget 4. -/
theorem simplifyMoves_equivalent_witness :
    (∀ f : Face, (fun _ : Face => Multiplicative.ofAdd (1 : ZMod 4)) f ^ 4 = 1) ∧
      ∃ r : List Move,
        simplifyMoves 4 ([Face.U.q, Face.U.q, Face.L.inv].map Move.token) =
          some (r.map Move.token) ∧
        movesProd (fun _ : Face => Multiplicative.ofAdd (1 : ZMod 4)) r =
          movesProd (fun _ : Face => Multiplicative.ofAdd (1 : ZMod 4))
            [Face.U.q, Face.U.q, Face.L.inv] :=
  ⟨fun _ => by show Multiplicative.ofAdd (1 : ZMod 4) ^ 4 = 1; decide,
    simplifyMoves_equivalent (fun _ : Face => Multiplicative.ofAdd (1 : ZMod 4))
      (fun _ => by show Multiplicative.ofAdd (1 : ZMod 4) ^ 4 = 1; decide) [Face.U.q, Face.U.q, Face.L.inv] 4 (by decide)⟩

/-- Claim C5: for every sequence of well-formed tokens, `simplifyMoves` returns a sequence
with at most as many tokens as the input. -/
theorem simplifyMoves_length_le (ms : List Move) (fuel : Nat) (hf : ms.length < fuel) :
    ∃ r : List (List Char),
      simplifyMoves fuel (ms.map Move.token) = some r ∧ r.length ≤ ms.length :=
  ⟨(simplify ms).map Move.token, simplifyMoves_eq ms fuel hf, by
    simpa using simplify_length_le ms⟩

/-- Claim C5 on `B B B B` with budget 5. -/
theorem simplifyMoves_length_le_witness :
    ∃ r : List (List Char),
      simplifyMoves 5 ([Face.B.q, Face.B.q, Face.B.q, Face.B.q].map Move.token) = some r ∧
        r.length ≤ [Face.B.q, Face.B.q, Face.B.q, Face.B.q].length :=
  simplifyMoves_length_le [Face.B.q, Face.B.q, Face.B.q, Face.B.q] 5 (by decide)

/-- Claim C6: a sequence of well-formed tokens in which no two adjacent tokens turn the
same face is returned by `simplifyMoves` as it is. -/
theorem simplifyMoves_of_noSameFace (ms : List Move) (fuel : Nat) (hf : ms.length < fuel)
    (h : noSameFace ms = true) :
    simplifyMoves fuel (ms.map Move.token) = some (ms.map Move.token) := by
  rw [simplifyMoves_eq ms fuel hf, simplify_of_noRulePair ms (noRulePair_of_noSameFace ms h)]

/-- Claim C6 on `U L` with budget 3. -/
theorem simplifyMoves_of_noSameFace_witness :
    simplifyMoves 3 ([Face.U.q, Face.L.q].map Move.token) =
      some ([Face.U.q, Face.L.q].map Move.token) :=
  simplifyMoves_of_noSameFace [Face.U.q, Face.L.q] 3 (by decide) (by decide)

/-- Claim C7, counterexample: on `R R U' U` the result of `simplifyMoves` is not the empty
sequence. -/
theorem simplifyMoves_RRUU_ne_nil :
    simplifyMoves 5 (["R", "R", "U'", "U"].map String.toList) ≠ some [] := by
  decide

/-- Claim C7, amended: on `R R U' U`, `simplifyMoves` returns the one-token sequence
`R2`. -/
theorem simplifyMoves_RRUU (fuel : Nat) (hf : 4 < fuel) :
    simplifyMoves fuel (["R", "R", "U'", "U"].map String.toList) =
      some (["R2"].map String.toList) := by
  have e := simplifyMoves_eq [Face.R.q, Face.R.q, Face.U.inv, Face.U.q] fuel hf
  have s : simplify [Face.R.q, Face.R.q, Face.U.inv, Face.U.q] = [Face.R.h] := by decide
  rw [s] at e
  exact e

/-- Claim C7, amended, with budget 5. -/
theorem simplifyMoves_RRUU_witness :
    simplifyMoves 5 (["R", "R", "U'", "U"].map String.toList) =
      some (["R2"].map String.toList) :=
  simplifyMoves_RRUU 5 (by decide)

/-! ## Lemmas about the solver state machine -/

theorem processGoalMoves_loop {MOVE W RC : Type} (rcMove : RC → MOVE → RC)
    (goalMoves : List MOVE) (s : CubeSolver MOVE W) (cube : RC) :
    goalMoves.foldl
        (fun (sc : CubeSolver MOVE W × RC) move =>
          ({ sc.1 with moveQueue := sc.1.moveQueue ++ [move], movesInQueue := true },
            rcMove sc.2 move))
        (s, cube) =
      ({ s with
          moveQueue := s.moveQueue ++ goalMoves
          movesInQueue := s.movesInQueue || !goalMoves.isEmpty },
        goalMoves.foldl rcMove cube) := by
  induction goalMoves generalizing s cube with
  | nil => simp
  | cons m ms ih => simp [ih]

theorem processGoalMoves_solver {MOVE W RC : Type} (rcMove : RC → MOVE → RC)
    (s : CubeSolver MOVE W) (cube : RC) (allMoves goalMoves : List MOVE) :
    (processGoalMoves rcMove s cube allMoves goalMoves).1 =
      { s with
        moveQueue := s.moveQueue ++ goalMoves
        movesInQueue := s.movesInQueue || !goalMoves.isEmpty } := by
  simp only [processGoalMoves, processGoalMoves_loop]

theorem enqueueAll_eq {MOVE W RC : Type} (rcMove : RC → MOVE → RC)
    (calls : List (GoalCall MOVE RC)) (s : CubeSolver MOVE W) :
    enqueueAll rcMove s calls =
      { s with
        moveQueue := s.moveQueue ++ enqueued calls
        movesInQueue := s.movesInQueue || !(enqueued calls).isEmpty } := by
  induction calls generalizing s with
  | nil => simp [enqueueAll, enqueued]
  | cons c cs ih =>
    have h : enqueueAll rcMove s (c :: cs) =
        enqueueAll rcMove (processGoalMoves rcMove s c.1 c.2.1 c.2.2).1 cs := rfl
    rw [h, ih, processGoalMoves_solver]
    have e : enqueued (c :: cs) = c.2.2 ++ enqueued cs := by simp [enqueued]
    rw [e]
    cases c.2.2 <;> simp [Bool.or_assoc]

theorem onPulse_dequeue {MOVE W : Type} (wmove : W → MOVE → W) (s : CubeSolver MOVE W)
    (now elapsed : ℚ) (move : MOVE) (rest : List MOVE) (hq : s.moveQueue = move :: rest)
    (hflag : s.movesInQueue = true) (hp : pacingOk s now) :
    ∃ s', onPulse wmove s now elapsed = some s' ∧ s'.pCube = wmove s.pCube move ∧
      s'.moveQueue = rest ∧ s'.movesInQueue = !rest.isEmpty ∧
      s'.moveTimer = ⟨true, now⟩ := by
  unfold pacingOk at hp
  simp only [onPulse, hflag, hp, and_self, if_true, hq]
  refine ⟨_, rfl, ?_, ?_, ?_, ?_⟩ <;> split <;> simp [Timer.restart]

theorem pulses_cons {MOVE W : Type} (wmove : W → MOVE → W) (s : CubeSolver MOVE W)
    (t : ℚ × ℚ) (ts : List (ℚ × ℚ)) :
    pulses wmove s (t :: ts) = (onPulse wmove s t.1 t.2).bind (fun s' => pulses wmove s' ts) := by
  simp [pulses, List.foldlM_cons]

theorem pulses_fifo {MOVE W : Type} (wmove : W → MOVE → W) (ticks : List (ℚ × ℚ))
    (s : CubeSolver MOVE W) (hflag : s.moveQueue ≠ [] → s.movesInQueue = true)
    (hlen : ticks.length ≤ s.moveQueue.length) (hp : allPaced wmove s ticks) :
    ∃ s', pulses wmove s ticks = some s' ∧
      s'.pCube = (s.moveQueue.take ticks.length).foldl wmove s.pCube ∧
      s'.moveQueue = s.moveQueue.drop ticks.length := by
  induction ticks generalizing s with
  | nil => exact ⟨s, rfl, by simp, by simp⟩
  | cons t ts ih =>
    cases hq : s.moveQueue with
    | nil => rw [hq] at hlen; simp at hlen
    | cons move rest =>
      obtain ⟨hp1, hp2⟩ := hp
      obtain ⟨s1, h1, hc, hrest, hfl, -⟩ :=
        onPulse_dequeue wmove s t.1 t.2 move rest hq (hflag (by simp [hq])) hp1
      rw [h1] at hp2
      have hlen' : ts.length ≤ s1.moveQueue.length := by
        rw [hq] at hlen
        rw [hrest]
        simpa using hlen
      have hflag' : s1.moveQueue ≠ [] → s1.movesInQueue = true := by
        intro hne
        rw [hfl]
        rw [hrest] at hne
        cases rest with
        | nil => exact absurd rfl hne
        | cons a b => rfl
      obtain ⟨s2, h2, hc2, hq2⟩ := ih s1 hflag' hlen' hp2
      refine ⟨s2, ?_, ?_, ?_⟩
      · rw [pulses_cons, h1]; exact h2
      · rw [hc2, hrest, hc]; simp
      · rw [hq2, hrest]; simp

theorem allPaced_take {MOVE W : Type} (wmove : W → MOVE → W) (ticks : List (ℚ × ℚ))
    (s : CubeSolver MOVE W) (i : Nat) (hp : allPaced wmove s ticks) :
    allPaced wmove s (ticks.take i) := by
  induction ticks generalizing s i with
  | nil => simpa using hp
  | cons t ts ih =>
    cases i with
    | zero => simp [allPaced]
    | succ i =>
      obtain ⟨hp1, hp2⟩ := hp
      refine ⟨hp1, ?_⟩
      cases h : onPulse wmove s t.1 t.2 with
      | none => trivial
      | some s' =>
        rw [h] at hp2
        exact ih s' i hp2

/-! ## Claims about the move queue and the solve key -/

/-- Claim C8: the move queue is first in, first out.  Starting from an empty queue, after
`processGoalMoves` calls that enqueue `m1 .. mk` and with no `onPulse` in between, `k`
successive `onPulse` calls that each find the pacing condition satisfied all return; after
the first `i` of them the displayed cube has had exactly `m1 .. mi` applied in that order
and the queue holds `m(i+1) .. mk`, so each call applies one move and the queue is empty
after the last. -/
theorem moveQueue_fifo {MOVE W RC : Type} (wmove : W → MOVE → W) (rcMove : RC → MOVE → RC)
    (s0 : CubeSolver MOVE W) (h0 : s0.moveQueue = []) (calls : List (GoalCall MOVE RC))
    (ticks : List (ℚ × ℚ)) (hlen : ticks.length = (enqueued calls).length)
    (hp : allPaced wmove (enqueueAll rcMove s0 calls) ticks) (i : Nat)
    (hi : i ≤ ticks.length) :
    ∃ si, pulses wmove (enqueueAll rcMove s0 calls) (ticks.take i) = some si ∧
      si.pCube = ((enqueued calls).take i).foldl wmove s0.pCube ∧
      si.moveQueue = (enqueued calls).drop i ∧
      (i = ticks.length → si.moveQueue = []) := by
  have hs := enqueueAll_eq rcMove calls s0
  have hq : (enqueueAll rcMove s0 calls).moveQueue = enqueued calls := by
    rw [hs]; simp [h0]
  have hc : (enqueueAll rcMove s0 calls).pCube = s0.pCube := by rw [hs]
  have hflag : (enqueueAll rcMove s0 calls).moveQueue ≠ [] →
      (enqueueAll rcMove s0 calls).movesInQueue = true := by
    rw [hq]
    intro hne
    rw [hs]
    cases h : enqueued calls with
    | nil => exact absurd h hne
    | cons a b => simp
  have hlt : (ticks.take i).length = i := by simp [hi]
  obtain ⟨si, h1, h2, h3⟩ := pulses_fifo wmove (ticks.take i) (enqueueAll rcMove s0 calls)
    hflag (by rw [hlt, hq, ← hlen]; exact hi) (allPaced_take wmove ticks _ i hp)
  rw [hlt, hq] at h2 h3
  rw [hc] at h2
  refine ⟨si, h1, h2, h3, ?_⟩
  intro hik
  rw [h3, hik, hlen]
  simp

/-- Claim C8 on the constructed solver, after one `processGoalMoves` call that enqueues the
moves 1 and 2, pulsed at clock readings 0 and 1. -/
theorem moveQueue_fifo_witness :
    (@CubeSolver.init Nat (List Nat) [] ⟨true⟩ ⟨0⟩ 290).moveQueue = [] ∧
      allPaced (fun (w : List Nat) (m : Nat) => w ++ [m])
        (enqueueAll (fun (c : List Nat) (m : Nat) => m :: c)
          (CubeSolver.init [] ⟨true⟩ ⟨0⟩ 290) [([], [], [1, 2])]) [(0, 0), (1, 0)] ∧
      ∃ si, pulses (fun (w : List Nat) (m : Nat) => w ++ [m])
          (enqueueAll (fun (c : List Nat) (m : Nat) => m :: c)
            (CubeSolver.init [] ⟨true⟩ ⟨0⟩ 290) [([], [], [1, 2])])
          ([((0 : ℚ), (0 : ℚ)), (1, 0)].take 2) = some si ∧
        si.pCube = ((enqueued [(([] : List Nat), ([] : List Nat), [1, 2])]).take 2).foldl
          (fun (w : List Nat) (m : Nat) => w ++ [m]) [] ∧
        si.moveQueue = (enqueued [(([] : List Nat), ([] : List Nat), [1, 2])]).drop 2 ∧
        (2 = [((0 : ℚ), (0 : ℚ)), (1, 0)].length → si.moveQueue = []) :=
  have hp : allPaced (fun (w : List Nat) (m : Nat) => w ++ [m])
      (enqueueAll (fun (c : List Nat) (m : Nat) => m :: c)
        (CubeSolver.init [] ⟨true⟩ ⟨0⟩ 290) [([], [], [1, 2])]) [(0, 0), (1, 0)] := by
    simp [allPaced, pacingOk, enqueueAll, processGoalMoves, onPulse, CubeSolver.init,
      Timer.init, Timer.isStarted, Timer.getElapsedSeconds, Timer.restart]
  ⟨rfl, hp,
    moveQueue_fifo (fun (w : List Nat) (m : Nat) => w ++ [m])
      (fun (c : List Nat) (m : Nat) => m :: c) (CubeSolver.init [] ⟨true⟩ ⟨0⟩ 290) rfl
      [([], [], [1, 2])] [(0, 0), (1, 0)] rfl hp 2 (by decide)⟩

/-- Claim C9: pacing of `onPulse`.  A call that returns either leaves the solver as it was
or removes exactly the front move of the queue, applies it to the displayed cube and
restarts the timer at the current clock reading; it removes a move only when the
queue-nonempty flag is set and the timer is not started or reports at least one second;
when the timer is started and reports less than one second the solver is unchanged; and
after a call that removed a move at clock reading `now`, a call on any solver with the
timer so restarted removes a move only at a reading at least one second later.  The other
methods leave the timer as it is, and a call returns whenever a set flag comes with a
nonempty queue. -/
theorem onPulse_pacing {MOVE W : Type} (wmove : W → MOVE → W) (s : CubeSolver MOVE W)
    (now elapsed : ℚ) :
    (∀ s', onPulse wmove s now elapsed = some s' →
        s' = s ∨ ∃ move rest, s.moveQueue = move :: rest ∧ s'.moveQueue = rest ∧
          s'.pCube = wmove s.pCube move ∧ s'.moveTimer = ⟨true, now⟩) ∧
      (∀ s', onPulse wmove s now elapsed = some s' → s'.moveQueue ≠ s.moveQueue →
        s.movesInQueue = true ∧
          (s.moveTimer.isStarted = false ∨ s.moveTimer.getElapsedSeconds now ≥ 1)) ∧
      (s.moveTimer.isStarted = true → s.moveTimer.getElapsedSeconds now < 1 →
        onPulse wmove s now elapsed = some s) ∧
      (∀ s1, onPulse wmove s now elapsed = some s1 → s1.moveQueue ≠ s.moveQueue →
        ∀ (s2 s3 : CubeSolver MOVE W) (now2 elapsed2 : ℚ), s2.moveTimer = s1.moveTimer →
          onPulse wmove s2 now2 elapsed2 = some s3 → s3.moveQueue ≠ s2.moveQueue →
          now2 - now ≥ 1) ∧
      (∀ b, (setSolving s b).moveTimer = s.moveTimer) ∧
      (∀ P key scancode action mods,
        (onKeypress P s key scancode action mods).moveTimer = s.moveTimer) ∧
      (∀ (RC : Type) (rcMove : RC → MOVE → RC) (cube : RC) (allMoves goalMoves : List MOVE),
        (processGoalMoves rcMove s cube allMoves goalMoves).1.moveTimer = s.moveTimer) ∧
      ((s.movesInQueue = true → s.moveQueue ≠ []) →
        ∃ s', onPulse wmove s now elapsed = some s') := by
  have key : ∀ (t : CubeSolver MOVE W) (n e : ℚ) (t' : CubeSolver MOVE W),
      onPulse wmove t n e = some t' →
      (t' = t ∧ ¬(t.movesInQueue = true ∧
          (t.moveTimer.isStarted = false ∨ t.moveTimer.getElapsedSeconds n ≥ 1))) ∨
        ((t.movesInQueue = true ∧
            (t.moveTimer.isStarted = false ∨ t.moveTimer.getElapsedSeconds n ≥ 1)) ∧
          ∃ move rest, t.moveQueue = move :: rest ∧ t'.moveQueue = rest ∧
            t'.pCube = wmove t.pCube move ∧ t'.moveTimer = ⟨true, n⟩) := by
    intro t n e t' h
    unfold onPulse at h
    split at h
    · next hc =>
      right
      refine ⟨hc, ?_⟩
      cases hq : t.moveQueue with
      | nil => simp [hq] at h
      | cons move rest =>
        simp only [hq, Option.some.injEq] at h
        subst h
        refine ⟨move, rest, rfl, ?_, ?_, ?_⟩ <;> split <;> simp [Timer.restart]
    · next hc =>
      left
      exact ⟨(Option.some.inj h).symm, hc⟩
  refine ⟨?_, ?_, ?_, ?_, ?_, ?_, ?_, ?_⟩
  · intro s' h
    rcases key s now elapsed s' h with ⟨h1, -⟩ | ⟨-, h2⟩
    · exact Or.inl h1
    · exact Or.inr h2
  · intro s' h hne
    rcases key s now elapsed s' h with ⟨h1, -⟩ | ⟨h2, -⟩
    · exact absurd (by rw [h1]) hne
    · exact h2
  · intro hs hlt
    unfold onPulse
    rw [if_neg]
    rintro ⟨-, h | h⟩
    · rw [hs] at h; exact Bool.noConfusion h
    · exact absurd hlt (not_lt.mpr h)
  · intro s1 h1 hne1 s2 s3 now2 elapsed2 ht h3 hne3
    have e1 : s1.moveTimer = ⟨true, now⟩ := by
      rcases key s now elapsed s1 h1 with ⟨h, -⟩ | ⟨-, _, _, _, _, _, h⟩
      · exact absurd (by rw [h]) hne1
      · exact h
    rcases key s2 now2 elapsed2 s3 h3 with ⟨h, -⟩ | ⟨⟨-, h⟩, -⟩
    · exact absurd (by rw [h]) hne3
    · rw [ht, e1] at h
      rcases h with h | h
      · exact Bool.noConfusion h
      · exact h
  · intro b
    unfold setSolving
    cases b <;> cases s.movesInQueue <;> rfl
  · intro P key scancode action mods
    unfold onKeypress
    split
    · rfl
    · rfl
  · intro RC rcMove cube allMoves goalMoves
    rw [processGoalMoves_solver]
  · intro hne
    unfold onPulse
    split
    · next hc =>
      cases hq : s.moveQueue with
      | nil => exact absurd hq (hne hc.1)
      | cons move rest => exact ⟨_, rfl⟩
    · exact ⟨s, rfl⟩

/-- Claim C9 on a solver with the moves 7 and 8 queued and the timer started at 0: pulsed
at one half the solver is unchanged. -/
theorem onPulse_pacing_witness :
    onPulse (fun (w : List Nat) (m : Nat) => w ++ [m])
        (CubeSolver.mk [] ⟨1⟩ ⟨false⟩ false true [7, 8] ⟨true, 0⟩ 290) (1 / 2) 0 =
      some (CubeSolver.mk [] ⟨1⟩ ⟨false⟩ false true [7, 8] ⟨true, 0⟩ 290) :=
  (onPulse_pacing (fun (w : List Nat) (m : Nat) => w ++ [m])
    (CubeSolver.mk [] ⟨1⟩ ⟨false⟩ false true [7, 8] ⟨true, 0⟩ 290) (1 / 2) 0).2.2.1 rfl
    (by norm_num [Timer.getElapsedSeconds])

/-- Claim C10: `onKeypress` starts a solve exactly when the action is a key press, the key
is the solve key and the mover is enabled.  Then `solving` becomes true, the mover is
disabled, one job is submitted and nothing else changes; otherwise the solver, and with it
the number of submitted jobs, is unchanged. -/
theorem onKeypress_admission {MOVE W : Type} (GLFW_PRESS : Int) (s : CubeSolver MOVE W)
    (key scancode action mods : Int) :
    (action = GLFW_PRESS ∧ key = s.solveKey ∧ s.pMover.isEnabled = true →
        onKeypress GLFW_PRESS s key scancode action mods =
          { s with solving := true, pMover := ⟨false⟩,
                   pThreadPool := ⟨s.pThreadPool.jobs + 1⟩ }) ∧
      (¬(action = GLFW_PRESS ∧ key = s.solveKey ∧ s.pMover.isEnabled = true) →
        onKeypress GLFW_PRESS s key scancode action mods = s) ∧
      ((onKeypress GLFW_PRESS s key scancode action mods).pThreadPool.jobs =
          s.pThreadPool.jobs + 1 ↔
        (action = GLFW_PRESS ∧ key = s.solveKey ∧ s.pMover.isEnabled = true)) := by
  by_cases hc : action = GLFW_PRESS ∧ key = s.solveKey ∧ s.pMover.isEnabled = true
  · have h : onKeypress GLFW_PRESS s key scancode action mods =
        { s with solving := true, pMover := ⟨false⟩,
                 pThreadPool := ⟨s.pThreadPool.jobs + 1⟩ } := by
      unfold onKeypress
      rw [if_pos hc]
      rfl
    refine ⟨fun _ => h, fun hn => absurd hc hn, ?_⟩
    rw [h]
    exact ⟨fun _ => hc, fun _ => rfl⟩
  · have h : onKeypress GLFW_PRESS s key scancode action mods = s := by
      unfold onKeypress
      rw [if_neg hc]
    refine ⟨fun h' => absurd h' hc, fun _ => h, ?_⟩
    rw [h]
    exact ⟨fun h' => absurd h' (by omega), fun h' => absurd h' hc⟩

/-- Claim C10 on the constructed solver with an enabled mover, for a press of the solve
key. -/
theorem onKeypress_admission_witness :
    onKeypress 1 (@CubeSolver.init Nat (List Nat) [] ⟨true⟩ ⟨0⟩ 290) 290 0 1 0 =
      CubeSolver.mk [] ⟨0 + 1⟩ ⟨false⟩ true false [] Timer.init 290 :=
  (onKeypress_admission 1 (@CubeSolver.init Nat (List Nat) [] ⟨true⟩ ⟨0⟩ 290)
    290 0 1 0).1 ⟨rfl, rfl, rfl⟩

/-! ## Lemmas about runs of the solver -/

theorem onPulse_some {MOVE W : Type} (wmove : W → MOVE → W) (s s' : CubeSolver MOVE W)
    (now elapsed : ℚ) (h : onPulse wmove s now elapsed = some s') :
    (s' = s ∧ ¬(s.movesInQueue = true ∧
        (s.moveTimer.isStarted = false ∨ s.moveTimer.getElapsedSeconds now ≥ 1))) ∨
      ((s.movesInQueue = true ∧
          (s.moveTimer.isStarted = false ∨ s.moveTimer.getElapsedSeconds now ≥ 1)) ∧
        ∃ move rest, s.moveQueue = move :: rest ∧
          s' = CubeSolver.mk (wmove s.pCube move) s.pThreadPool
            (if (!rest.isEmpty) = false ∧ s.solving = false then ⟨true⟩ else s.pMover)
            s.solving (!rest.isEmpty) rest ⟨true, now⟩ s.solveKey) := by
  unfold onPulse at h
  split at h
  · next hc =>
    right
    refine ⟨hc, ?_⟩
    cases hq : s.moveQueue with
    | nil => simp [hq] at h
    | cons move rest =>
      simp only [hq, Option.some.injEq] at h
      subst h
      refine ⟨move, rest, rfl, ?_⟩
      split <;> rfl
  · next hc =>
    left
    exact ⟨(Option.some.inj h).symm, hc⟩

theorem setSolving_eq {MOVE W : Type} (s : CubeSolver MOVE W) (b : Bool) :
    setSolving s b = CubeSolver.mk s.pCube s.pThreadPool
      (if b = true then ⟨false⟩ else if s.movesInQueue = false then ⟨true⟩ else s.pMover)
      b s.movesInQueue s.moveQueue s.moveTimer s.solveKey := by
  unfold setSolving
  cases b <;> cases h : s.movesInQueue <;> simp [h, CubeMover.enable, CubeMover.disable]

theorem onKeypress_eq {MOVE W : Type} (GLFW_PRESS : Int) (s : CubeSolver MOVE W)
    (key scancode action mods : Int) :
    onKeypress GLFW_PRESS s key scancode action mods =
      if action = GLFW_PRESS ∧ key = s.solveKey ∧ s.pMover.isEnabled = true then
        CubeSolver.mk s.pCube ⟨s.pThreadPool.jobs + 1⟩ ⟨false⟩ true s.movesInQueue
          s.moveQueue s.moveTimer s.solveKey
      else s := by
  unfold onKeypress
  split
  · rw [setSolving_eq]; rfl
  · rfl

theorem step_flagAgrees {MOVE W RC : Type} (GLFW_PRESS : Int) (wmove : W → MOVE → W)
    (rcMove : RC → MOVE → RC) (s s' : CubeSolver MOVE W) (op : Op MOVE RC)
    (hf : flagAgrees s) (h : step GLFW_PRESS wmove rcMove s op = some s') :
    flagAgrees s' := by
  unfold flagAgrees at hf ⊢
  cases op with
  | onKeypress key scancode action mods =>
    simp only [step, Option.some.injEq] at h
    subst h
    rw [onKeypress_eq]
    split <;> exact hf
  | onPulse now elapsed =>
    rcases onPulse_some wmove s s' now elapsed h with ⟨rfl, -⟩ | ⟨-, move, rest, -, rfl⟩
    · exact hf
    · rfl
  | setSolving b =>
    simp only [step, Option.some.injEq] at h
    subst h
    rw [setSolving_eq]
    exact hf
  | processGoalMoves cube allMoves goalMoves =>
    simp only [step, Option.some.injEq] at h
    subst h
    rw [processGoalMoves_solver]
    simp only [hf]
    cases s.moveQueue <;> cases goalMoves <;> rfl

theorem step_gateClosed {MOVE W RC : Type} (GLFW_PRESS : Int) (wmove : W → MOVE → W)
    (rcMove : RC → MOVE → RC) (s s' : CubeSolver MOVE W) (op : Op MOVE RC)
    (hf : flagAgrees s) (hg : gateClosed s) (hop : gated s op = true)
    (h : step GLFW_PRESS wmove rcMove s op = some s') : gateClosed s' := by
  unfold flagAgrees at hf
  unfold gateClosed at hg ⊢
  cases op with
  | onKeypress key scancode action mods =>
    simp only [step, Option.some.injEq] at h
    subst h
    rw [onKeypress_eq]
    split
    · intro he; exact absurd he (by simp [CubeMover.isEnabled])
    · exact hg
  | onPulse now elapsed =>
    rcases onPulse_some wmove s s' now elapsed h with
      ⟨rfl, -⟩ | ⟨⟨hflag, -⟩, move, rest, hq, rfl⟩
    · exact hg
    · simp only
      split
      · next hc =>
        intro _
        refine ⟨hc.2, ?_⟩
        cases rest with
        | nil => rfl
        | cons a b => simp at hc
      · intro he
        have := (hg he).2
        rw [hq] at this
        exact absurd this (by simp)
  | setSolving b =>
    simp only [step, Option.some.injEq] at h
    subst h
    rw [setSolving_eq]
    simp only
    cases b with
    | true => intro he; exact absurd he (by simp [CubeMover.isEnabled])
    | false =>
      simp only [Bool.false_eq_true, if_false]
      split
      · next hm =>
        intro _
        refine ⟨trivial, ?_⟩
        rw [hf] at hm
        cases hq : s.moveQueue with
        | nil => rfl
        | cons a b => simp [hq] at hm
      · intro he
        exact ⟨trivial, (hg he).2⟩
  | processGoalMoves cube allMoves goalMoves =>
    simp only [gated] at hop
    simp only [step, Option.some.injEq] at h
    subst h
    rw [processGoalMoves_solver]
    intro he
    have := (hg he).1
    rw [hop] at this
    exact absurd this (by simp)

theorem init_flagAgrees {MOVE W : Type} (pCube : W) (pMover : CubeMover)
    (pThreadPool : ThreadPool) (solveKey : Int) :
    flagAgrees (@CubeSolver.init MOVE W pCube pMover pThreadPool solveKey) := rfl

theorem init_gateClosed {MOVE W : Type} (pCube : W) (pMover : CubeMover)
    (pThreadPool : ThreadPool) (solveKey : Int) :
    gateClosed (@CubeSolver.init MOVE W pCube pMover pThreadPool solveKey) :=
  fun _ => ⟨rfl, rfl⟩

theorem onPulse_isSome {MOVE W : Type} (wmove : W → MOVE → W) (s : CubeSolver MOVE W)
    (now elapsed : ℚ) (hf : flagAgrees s) : ∃ s', onPulse wmove s now elapsed = some s' := by
  unfold flagAgrees at hf
  unfold onPulse
  split
  · next hc =>
    cases hq : s.moveQueue with
    | nil => rw [hf, hq] at hc; simp at hc
    | cons move rest => exact ⟨_, rfl⟩
  · exact ⟨s, rfl⟩

theorem step_isSome {MOVE W RC : Type} (GLFW_PRESS : Int) (wmove : W → MOVE → W)
    (rcMove : RC → MOVE → RC) (s : CubeSolver MOVE W) (op : Op MOVE RC)
    (hf : flagAgrees s) : ∃ s', step GLFW_PRESS wmove rcMove s op = some s' := by
  cases op with
  | onPulse now elapsed => exact onPulse_isSome wmove s now elapsed hf
  | onKeypress key scancode action mods => exact ⟨_, rfl⟩
  | setSolving b => exact ⟨_, rfl⟩
  | processGoalMoves cube allMoves goalMoves => exact ⟨_, rfl⟩

theorem run_flagAgrees {MOVE W RC : Type} (GLFW_PRESS : Int) (wmove : W → MOVE → W)
    (rcMove : RC → MOVE → RC) (ops : List (Op MOVE RC)) (s : CubeSolver MOVE W)
    (hf : flagAgrees s) :
    ∃ s', run GLFW_PRESS wmove rcMove s ops = some s' ∧ flagAgrees s' := by
  induction ops generalizing s with
  | nil => exact ⟨s, rfl, hf⟩
  | cons op ops ih =>
    obtain ⟨s1, h1⟩ := step_isSome GLFW_PRESS wmove rcMove s op hf
    obtain ⟨s2, h2, hf2⟩ := ih s1 (step_flagAgrees GLFW_PRESS wmove rcMove s s1 op hf h1)
    exact ⟨s2, by simp [run, h1, h2], hf2⟩

theorem runGated_inv {MOVE W RC : Type} (GLFW_PRESS : Int) (wmove : W → MOVE → W)
    (rcMove : RC → MOVE → RC) (ops : List (Op MOVE RC)) (s s' : CubeSolver MOVE W)
    (hf : flagAgrees s) (hg : gateClosed s)
    (h : runGated GLFW_PRESS wmove rcMove s ops = some s') :
    flagAgrees s' ∧ gateClosed s' := by
  induction ops generalizing s with
  | nil =>
    simp only [runGated, Option.some.injEq] at h
    subst h
    exact ⟨hf, hg⟩
  | cons op ops ih =>
    rw [runGated] at h
    split at h
    · next hop =>
      cases h1 : step GLFW_PRESS wmove rcMove s op with
      | none => simp [h1] at h
      | some s1 =>
        rw [h1] at h
        exact ih s1 (step_flagAgrees GLFW_PRESS wmove rcMove s s1 op hf h1)
          (step_gateClosed GLFW_PRESS wmove rcMove s s1 op hf hg hop h1) h
    · exact absurd h (by simp)

theorem step_jobs {MOVE W RC : Type} (GLFW_PRESS : Int) (wmove : W → MOVE → W)
    (rcMove : RC → MOVE → RC) (s s' : CubeSolver MOVE W) (op : Op MOVE RC)
    (hm : s.pMover.isEnabled = false) (h : step GLFW_PRESS wmove rcMove s op = some s') :
    s'.pThreadPool.jobs = s.pThreadPool.jobs := by
  cases op with
  | onKeypress key scancode action mods =>
    simp only [step, Option.some.injEq] at h
    subst h
    rw [onKeypress_eq, if_neg]
    rintro ⟨-, -, he⟩
    rw [hm] at he
    exact Bool.noConfusion he
  | onPulse now elapsed =>
    rcases onPulse_some wmove s s' now elapsed h with ⟨rfl, -⟩ | ⟨-, move, rest, -, rfl⟩ <;> rfl
  | setSolving b =>
    simp only [step, Option.some.injEq] at h
    subst h
    rw [setSolving_eq]
  | processGoalMoves cube allMoves goalMoves =>
    simp only [step, Option.some.injEq] at h
    subst h
    rw [processGoalMoves_solver]

theorem busy_mover_disabled {MOVE W : Type} (s : CubeSolver MOVE W) (hg : gateClosed s)
    (hb : busy s = true) : s.pMover.isEnabled = false := by
  cases he : s.pMover.isEnabled with
  | false => rfl
  | true =>
    obtain ⟨h1, h2⟩ := hg he
    simp [busy, h1, h2] at hb

theorem staysBusy_jobs {MOVE W RC : Type} (GLFW_PRESS : Int) (wmove : W → MOVE → W)
    (rcMove : RC → MOVE → RC) (ops : List (Op MOVE RC)) (s s' : CubeSolver MOVE W)
    (hf : flagAgrees s) (hg : gateClosed s)
    (hb : staysBusy GLFW_PRESS wmove rcMove s ops = true)
    (h : runGated GLFW_PRESS wmove rcMove s ops = some s') :
    s'.pThreadPool.jobs = s.pThreadPool.jobs := by
  induction ops generalizing s with
  | nil =>
    simp only [runGated, Option.some.injEq] at h
    rw [h]
  | cons op ops ih =>
    rw [runGated] at h
    split at h
    · next hop =>
      cases h1 : step GLFW_PRESS wmove rcMove s op with
      | none => simp [h1] at h
      | some s1 =>
        rw [h1] at h
        simp only [staysBusy, h1, Bool.and_eq_true] at hb
        have hj := step_jobs GLFW_PRESS wmove rcMove s s1 op
          (busy_mover_disabled s hg hb.1) h1
        rw [← hj]
        exact ih s1 (step_flagAgrees GLFW_PRESS wmove rcMove s s1 op hf h1)
          (step_gateClosed GLFW_PRESS wmove rcMove s s1 op hf hg hop h1) hb.2 h
    · exact absurd h (by simp)

/-! ## Claims about the interaction gate, the flag and the frame of each method -/

/-- Claim C11: gate mutual exclusion.  In every state reached from the constructed state
with the mover enabled, by calls in any order with `processGoalMoves` called only while
`solving` is true, a key press made while `solving` is true or the queue is nonempty leaves
the solver, and so the number of submitted jobs, as it is; the number of submitted jobs
does not change along calls made on a busy solver; and after the first successful press of
the solve key it stays one above its first value along such calls. -/
theorem gate_mutual_exclusion {MOVE W RC : Type} (GLFW_PRESS : Int) (wmove : W → MOVE → W)
    (rcMove : RC → MOVE → RC) (pCube : W) (pThreadPool : ThreadPool) (solveKey : Int)
    (ops : List (Op MOVE RC)) (s : CubeSolver MOVE W)
    (hrun : runGated GLFW_PRESS wmove rcMove
      (CubeSolver.init pCube ⟨true⟩ pThreadPool solveKey) ops = some s) :
    (s.solving = true ∨ s.moveQueue ≠ [] →
        ∀ key scancode action mods, onKeypress GLFW_PRESS s key scancode action mods = s) ∧
      (∀ (ops' : List (Op MOVE RC)) (s' : CubeSolver MOVE W),
        staysBusy GLFW_PRESS wmove rcMove s ops' = true →
        runGated GLFW_PRESS wmove rcMove s ops' = some s' →
        s'.pThreadPool.jobs = s.pThreadPool.jobs) ∧
      (∀ (scancode mods : Int) (ops' : List (Op MOVE RC)) (s' : CubeSolver MOVE W),
        staysBusy GLFW_PRESS wmove rcMove
          (onKeypress GLFW_PRESS (CubeSolver.init pCube ⟨true⟩ pThreadPool solveKey)
            solveKey scancode GLFW_PRESS mods) ops' = true →
        runGated GLFW_PRESS wmove rcMove
          (onKeypress GLFW_PRESS (CubeSolver.init pCube ⟨true⟩ pThreadPool solveKey)
            solveKey scancode GLFW_PRESS mods) ops' = some s' →
        s'.pThreadPool.jobs = pThreadPool.jobs + 1) := by
  have hinit_f := @init_flagAgrees MOVE W pCube ⟨true⟩ pThreadPool solveKey
  have hinit_g := @init_gateClosed MOVE W pCube ⟨true⟩ pThreadPool solveKey
  obtain ⟨hf, hg⟩ := runGated_inv GLFW_PRESS wmove rcMove ops _ s hinit_f hinit_g hrun
  refine ⟨?_, ?_, ?_⟩
  · intro hb key scancode action mods
    have hm : s.pMover.isEnabled = false := by
      apply busy_mover_disabled s hg
      rcases hb with h | h
      · simp [busy, h]
      · cases hq : s.moveQueue with
        | nil => exact absurd hq h
        | cons a b => simp [busy, hq]
    rw [onKeypress_eq, if_neg]
    rintro ⟨-, -, he⟩
    rw [hm] at he
    exact Bool.noConfusion he
  · intro ops' s' hb h
    exact staysBusy_jobs GLFW_PRESS wmove rcMove ops' s s' hf hg hb h
  · intro scancode mods ops' s' hb h
    have h1 : step GLFW_PRESS wmove rcMove (CubeSolver.init pCube ⟨true⟩ pThreadPool solveKey)
        (Op.onKeypress solveKey scancode GLFW_PRESS mods) =
        some (onKeypress GLFW_PRESS (CubeSolver.init pCube ⟨true⟩ pThreadPool solveKey)
          solveKey scancode GLFW_PRESS mods) := rfl
    have hf1 := step_flagAgrees GLFW_PRESS wmove rcMove _ _ _ hinit_f h1
    have hg1 := step_gateClosed GLFW_PRESS wmove rcMove _ _
      (Op.onKeypress solveKey scancode GLFW_PRESS mods) hinit_f hinit_g rfl h1
    rw [staysBusy_jobs GLFW_PRESS wmove rcMove ops' _ s' hf1 hg1 hb h, onKeypress_eq,
      if_pos ⟨rfl, rfl, rfl⟩]
    rfl

/-- Claim C11 after a successful press of the solve key on a solver with no job submitted:
a second press changes nothing, and after a second press, a `processGoalMoves` call, the
end of the solve and a third press, one job has been submitted. -/
theorem gate_mutual_exclusion_witness :
    runGated 1 (fun (w : List Nat) (m : Nat) => w ++ [m])
        (fun (c : List Nat) (m : Nat) => m :: c)
        (CubeSolver.init [] ⟨true⟩ ⟨0⟩ 290) [Op.onKeypress 290 0 1 0] =
      some (CubeSolver.mk [] ⟨1⟩ ⟨false⟩ true false [] Timer.init 290) ∧
    onKeypress 1 (CubeSolver.mk ([] : List Nat) ⟨1⟩ ⟨false⟩ true false ([] : List Nat)
        Timer.init 290) 290 0 1 0 =
      CubeSolver.mk [] ⟨1⟩ ⟨false⟩ true false [] Timer.init 290 ∧
    (CubeSolver.mk ([] : List Nat) ⟨1⟩ ⟨false⟩ false true [5] Timer.init 290).pThreadPool.jobs =
      (CubeSolver.mk ([] : List Nat) ⟨1⟩ ⟨false⟩ true false ([] : List Nat)
        Timer.init 290).pThreadPool.jobs :=
  have h := gate_mutual_exclusion 1 (fun (w : List Nat) (m : Nat) => w ++ [m])
    (fun (c : List Nat) (m : Nat) => m :: c) [] ⟨0⟩ 290 [Op.onKeypress 290 0 1 0]
    (CubeSolver.mk [] ⟨1⟩ ⟨false⟩ true false [] Timer.init 290) rfl
  ⟨rfl, h.1 (Or.inl rfl) 290 0 1 0,
    h.2.1 [Op.onKeypress 290 0 1 0, Op.processGoalMoves [] [] [5], Op.setSolving false,
        Op.onKeypress 290 0 1 0]
      (CubeSolver.mk [] ⟨1⟩ ⟨false⟩ false true [5] Timer.init 290) rfl rfl⟩

/-- Claim C12: re-enable timing.  In every state reached from the constructed state with
the mover enabled, by calls in any order with `processGoalMoves` called only while
`solving` is true, the mover is enabled only if `solving` is false and the queue is empty;
it is disabled whenever `solving` is true or the queue is nonempty. -/
theorem mover_enabled_only_idle {MOVE W RC : Type} (GLFW_PRESS : Int)
    (wmove : W → MOVE → W) (rcMove : RC → MOVE → RC) (pCube : W)
    (pThreadPool : ThreadPool) (solveKey : Int) (ops : List (Op MOVE RC))
    (s : CubeSolver MOVE W)
    (hrun : runGated GLFW_PRESS wmove rcMove
      (CubeSolver.init pCube ⟨true⟩ pThreadPool solveKey) ops = some s) :
    (s.pMover.isEnabled = true → s.solving = false ∧ s.moveQueue = []) ∧
      (s.solving = true ∨ s.moveQueue ≠ [] → s.pMover.isEnabled = false) := by
  obtain ⟨-, hg⟩ := runGated_inv GLFW_PRESS wmove rcMove ops _ s
    (@init_flagAgrees MOVE W pCube ⟨true⟩ pThreadPool solveKey)
    (@init_gateClosed MOVE W pCube ⟨true⟩ pThreadPool solveKey) hrun
  refine ⟨hg, ?_⟩
  intro hb
  cases he : s.pMover.isEnabled with
  | false => rfl
  | true =>
    obtain ⟨h1, h2⟩ := hg he
    rcases hb with h | h
    · rw [h1] at h; exact Bool.noConfusion h
    · exact absurd h2 h

/-- Claim C12 after a press of the solve key, a `processGoalMoves` call that enqueues the
move 5 and the end of the solve: the queue is nonempty and the mover is disabled. -/
theorem mover_enabled_only_idle_witness :
    runGated 1 (fun (w : List Nat) (m : Nat) => w ++ [m])
        (fun (c : List Nat) (m : Nat) => m :: c)
        (CubeSolver.init [] ⟨true⟩ ⟨0⟩ 290)
        [Op.onKeypress 290 0 1 0, Op.processGoalMoves [] [] [5], Op.setSolving false] =
      some (CubeSolver.mk [] ⟨1⟩ ⟨false⟩ false true [5] Timer.init 290) ∧
    (CubeSolver.mk ([] : List Nat) ⟨1⟩ ⟨false⟩ false true [5] Timer.init
      290).pMover.isEnabled = false :=
  ⟨rfl,
    (mover_enabled_only_idle 1 (fun (w : List Nat) (m : Nat) => w ++ [m])
      (fun (c : List Nat) (m : Nat) => m :: c) [] ⟨0⟩ 290
      [Op.onKeypress 290 0 1 0, Op.processGoalMoves [] [] [5], Op.setSolving false]
      (CubeSolver.mk [] ⟨1⟩ ⟨false⟩ false true [5] Timer.init 290) rfl).2
      (Or.inr (by simp))⟩

/-- Claim C13: the queue-nonempty flag agrees with the queue.  Every sequence of calls from
the constructed state runs to an end, and in the state it reaches (so after every
`onPulse` and every `processGoalMoves` call) the flag is true exactly when the queue is
nonempty; `onKeypress` and `setSolving` change neither the flag nor the queue, in any
state. -/
theorem movesInQueue_iff_nonempty {MOVE W RC : Type} (GLFW_PRESS : Int)
    (wmove : W → MOVE → W) (rcMove : RC → MOVE → RC) (pCube : W) (pMover : CubeMover)
    (pThreadPool : ThreadPool) (solveKey : Int) (ops : List (Op MOVE RC)) :
    (∃ s, run GLFW_PRESS wmove rcMove (CubeSolver.init pCube pMover pThreadPool solveKey)
        ops = some s ∧ (s.movesInQueue = true ↔ s.moveQueue ≠ [])) ∧
      (∀ (t : CubeSolver MOVE W) (key scancode action mods : Int),
        (onKeypress GLFW_PRESS t key scancode action mods).movesInQueue = t.movesInQueue ∧
          (onKeypress GLFW_PRESS t key scancode action mods).moveQueue = t.moveQueue) ∧
      (∀ (t : CubeSolver MOVE W) (b : Bool),
        (setSolving t b).movesInQueue = t.movesInQueue ∧
          (setSolving t b).moveQueue = t.moveQueue) := by
  refine ⟨?_, ?_, ?_⟩
  · obtain ⟨s, hs, hf⟩ := run_flagAgrees GLFW_PRESS wmove rcMove ops _
      (@init_flagAgrees MOVE W pCube pMover pThreadPool solveKey)
    refine ⟨s, hs, ?_⟩
    unfold flagAgrees at hf
    rw [hf]
    cases s.moveQueue <;> simp
  · intro t key scancode action mods
    rw [onKeypress_eq]
    split <;> exact ⟨rfl, rfl⟩
  · intro t b
    rw [setSolving_eq]
    exact ⟨rfl, rfl⟩

/-- Claim C14: the postcondition of `processGoalMoves`.  After the call `allMoves` is its
old value followed by the old `goalMoves`, the working copy has had the old `goalMoves`
applied in order, the queue is its old contents followed by the old `goalMoves`,
`goalMoves` is empty and the flag is set if a move was enqueued; when `goalMoves` is empty
on entry the solver, the working copy and `allMoves` are unchanged. -/
theorem processGoalMoves_post {MOVE W RC : Type} (rcMove : RC → MOVE → RC)
    (s : CubeSolver MOVE W) (cube : RC) (allMoves goalMoves : List MOVE) :
    processGoalMoves rcMove s cube allMoves goalMoves =
        (CubeSolver.mk s.pCube s.pThreadPool s.pMover s.solving
            (s.movesInQueue || !goalMoves.isEmpty) (s.moveQueue ++ goalMoves) s.moveTimer
            s.solveKey,
          goalMoves.foldl rcMove cube, allMoves ++ goalMoves, []) ∧
      (goalMoves = [] →
        processGoalMoves rcMove s cube allMoves goalMoves = (s, cube, allMoves, [])) := by
  have h : processGoalMoves rcMove s cube allMoves goalMoves =
      (CubeSolver.mk s.pCube s.pThreadPool s.pMover s.solving
          (s.movesInQueue || !goalMoves.isEmpty) (s.moveQueue ++ goalMoves) s.moveTimer
          s.solveKey,
        goalMoves.foldl rcMove cube, allMoves ++ goalMoves, []) := by
    simp only [processGoalMoves, processGoalMoves_loop]
  refine ⟨h, ?_⟩
  intro hg
  rw [h, hg]
  simp

/-- Claim C15: drain-completion release.  An `onPulse` call that dequeues the last queued
move while `solving` is false enables the mover; one that dequeues while `solving` is true,
or that leaves the queue nonempty, leaves the mover as it was; `setSolving(false)` enables
the mover when the flag is false and leaves it as it was when the flag is true; and
`setSolving(true)` disables it. -/
theorem drain_completion_release {MOVE W : Type} (wmove : W → MOVE → W)
    (s : CubeSolver MOVE W) (now elapsed : ℚ) :
    (∀ move, s.movesInQueue = true → pacingOk s now → s.moveQueue = [move] →
        s.solving = false →
        ∃ s', onPulse wmove s now elapsed = some s' ∧ s'.moveQueue = [] ∧
          s'.pMover.isEnabled = true) ∧
      (∀ move rest, s.movesInQueue = true → pacingOk s now → s.moveQueue = move :: rest →
        (s.solving = true ∨ rest ≠ []) →
        ∃ s', onPulse wmove s now elapsed = some s' ∧ s'.moveQueue = rest ∧
          s'.pMover = s.pMover) ∧
      (s.movesInQueue = false → (setSolving s false).pMover.isEnabled = true) ∧
      (s.movesInQueue = true → (setSolving s false).pMover = s.pMover) ∧
      (setSolving s true).pMover.isEnabled = false := by
  have key : ∀ move rest, s.movesInQueue = true → pacingOk s now →
      s.moveQueue = move :: rest →
      onPulse wmove s now elapsed = some (CubeSolver.mk (wmove s.pCube move) s.pThreadPool
        (if (!rest.isEmpty) = false ∧ s.solving = false then ⟨true⟩ else s.pMover)
        s.solving (!rest.isEmpty) rest ⟨true, now⟩ s.solveKey) := by
    intro move rest hflag hp hq
    obtain ⟨s', h, -⟩ := onPulse_dequeue wmove s now elapsed move rest hq hflag hp
    rcases onPulse_some wmove s s' now elapsed h with ⟨-, hn⟩ | ⟨-, m, r, hq', rfl⟩
    · exact absurd ⟨hflag, hp⟩ hn
    · rw [hq] at hq'
      obtain ⟨rfl, rfl⟩ := List.cons.inj hq'
      exact h
  refine ⟨?_, ?_, ?_, ?_, ?_⟩
  · intro move hflag hp hq hs
    refine ⟨_, key move [] hflag hp hq, rfl, ?_⟩
    simp [hs, CubeMover.isEnabled]
  · intro move rest hflag hp hq hor
    refine ⟨_, key move rest hflag hp hq, rfl, ?_⟩
    have hn : ¬((!rest.isEmpty) = false ∧ s.solving = false) := by
      rintro ⟨h1, h2⟩
      rcases hor with h | h
      · rw [h2] at h; exact Bool.noConfusion h
      · cases rest with
        | nil => exact h rfl
        | cons a b => simp at h1
    simp only [if_neg hn]
  · intro hflag
    rw [setSolving_eq]
    simp [hflag, CubeMover.isEnabled]
  · intro hflag
    rw [setSolving_eq]
    simp [hflag]
  · rw [setSolving_eq]
    simp [CubeMover.isEnabled]

/-- Claim C15 on a solver that is not solving, with the single move 7 queued and the timer
not started: a pulse empties the queue and enables the mover. -/
theorem drain_completion_release_witness :
    ∃ s', onPulse (fun (w : List Nat) (m : Nat) => w ++ [m])
        (CubeSolver.mk [] ⟨1⟩ ⟨false⟩ false true [7] Timer.init 290) 0 0 = some s' ∧
      s'.moveQueue = [] ∧ s'.pMover.isEnabled = true :=
  (drain_completion_release (fun (w : List Nat) (m : Nat) => w ++ [m])
    (CubeSolver.mk [] ⟨1⟩ ⟨false⟩ false true [7] Timer.init 290) 0 0).1 7 rfl
    (Or.inl rfl) rfl rfl

/-- Claim C16: the displayed cube is changed only by `onPulse`.  `processGoalMoves`,
`setSolving` and `onKeypress` leave `pCube` as it is; `processGoalMoves` applies the moves
to the working copy passed to it and changes neither `solving` nor the mover; and an
`onPulse` call either leaves the displayed cube and the queue as they are or applies to the
displayed cube exactly the move it took from the front of the queue. -/
theorem pCube_changed_only_by_onPulse {MOVE W RC : Type} (GLFW_PRESS : Int)
    (wmove : W → MOVE → W) (rcMove : RC → MOVE → RC) (s : CubeSolver MOVE W) :
    (∀ (cube : RC) (allMoves goalMoves : List MOVE),
        (processGoalMoves rcMove s cube allMoves goalMoves).1.pCube = s.pCube ∧
          (processGoalMoves rcMove s cube allMoves goalMoves).1.solving = s.solving ∧
          (processGoalMoves rcMove s cube allMoves goalMoves).1.pMover = s.pMover ∧
          (processGoalMoves rcMove s cube allMoves goalMoves).2.1 =
            goalMoves.foldl rcMove cube) ∧
      (∀ b, (setSolving s b).pCube = s.pCube) ∧
      (∀ key scancode action mods,
        (onKeypress GLFW_PRESS s key scancode action mods).pCube = s.pCube) ∧
      (∀ now elapsed s', onPulse wmove s now elapsed = some s' →
        (s'.pCube = s.pCube ∧ s'.moveQueue = s.moveQueue) ∨
          ∃ move rest, s.moveQueue = move :: rest ∧ s'.moveQueue = rest ∧
            s'.pCube = wmove s.pCube move) := by
  refine ⟨?_, ?_, ?_, ?_⟩
  · intro cube allMoves goalMoves
    simp only [processGoalMoves, processGoalMoves_loop]
    exact ⟨trivial, trivial, trivial, trivial⟩
  · intro b
    rw [setSolving_eq]
  · intro key scancode action mods
    rw [onKeypress_eq]
    split <;> rfl
  · intro now elapsed s' h
    rcases onPulse_some wmove s s' now elapsed h with ⟨rfl, -⟩ | ⟨-, move, rest, hq, rfl⟩
    · exact Or.inl ⟨rfl, rfl⟩
    · exact Or.inr ⟨move, rest, hq, rfl, rfl⟩

/-- Claim C20: `onPulse` never reads the front of an empty queue.  Every sequence of
`onKeypress`, `onPulse`, `setSolving` and `processGoalMoves` calls from the constructed
state runs to an end without the `front()` error, and in the state it reaches, whenever
the condition of the dequeue branch of `onPulse` holds the queue is nonempty, so a further
`onPulse` call returns. -/
theorem onPulse_front_safe {MOVE W RC : Type} (GLFW_PRESS : Int) (wmove : W → MOVE → W)
    (rcMove : RC → MOVE → RC) (pCube : W) (pMover : CubeMover) (pThreadPool : ThreadPool)
    (solveKey : Int) (ops : List (Op MOVE RC)) :
    ∃ s, run GLFW_PRESS wmove rcMove (CubeSolver.init pCube pMover pThreadPool solveKey)
        ops = some s ∧
      ∀ now elapsed,
        (s.movesInQueue = true ∧
            (s.moveTimer.isStarted = false ∨ s.moveTimer.getElapsedSeconds now ≥ 1) →
          s.moveQueue ≠ []) ∧
        ∃ s', onPulse wmove s now elapsed = some s' := by
  obtain ⟨s, hs, hf⟩ := run_flagAgrees GLFW_PRESS wmove rcMove ops _
    (@init_flagAgrees MOVE W pCube pMover pThreadPool solveKey)
  refine ⟨s, hs, fun now elapsed => ⟨?_, onPulse_isSome wmove s now elapsed hf⟩⟩
  rintro ⟨hflag, -⟩ hq
  unfold flagAgrees at hf
  rw [hf, hq] at hflag
  exact Bool.noConfusion hflag

/-! ## Claims about the lock, the single pass and termination -/

theorem onPulseEffects_run {MOVE W : Type} (wmove : W → MOVE → W) (s : CubeSolver MOVE W)
    (now elapsed : ℚ) :
    (onPulseEffects s now elapsed).foldlM (Effect.run wmove now) s =
      onPulse wmove s now elapsed := by
  unfold onPulseEffects onPulse
  split
  · cases hq : s.moveQueue with
    | nil => simp [Effect.run, hq]
    | cons move rest =>
      by_cases hc : (!rest.isEmpty) = false ∧ s.solving = false
      · simp [Effect.run, hq, hc]
      · simp only [hq, if_neg hc]
        simp [Effect.run, hq]
  · rfl

/-- Claim C17, counterexample: in a dequeuing `onPulse` call on a solver with the moves 7
and 8 queued, the mutex is released last, after the move 7 has been applied to the
displayed cube, so the move is applied while the mutex is held. -/
theorem onPulse_applies_move_under_lock :
    onPulseEffects (CubeSolver.mk ([] : List Nat) ⟨1⟩ ⟨false⟩ false true [7, 8]
        Timer.init 290) 0 0 =
      [Effect.lock, Effect.front, Effect.pop, Effect.applyMove 7,
        Effect.setMovesInQueue true, Effect.restartTimer, Effect.unlock] ∧
    Effect.applyMove 7 ∈ heldEffects false
      (onPulseEffects (CubeSolver.mk ([] : List Nat) ⟨1⟩ ⟨false⟩ false true [7, 8]
        Timer.init 290) 0 0) := by
  decide

/-- Claim C17, amended: in a dequeuing `onPulse` call the mutex is held for the whole
dequeue branch.  It is taken first and released last, after the front move has been
popped and applied to the displayed cube, the flag updated, the mover enabled if the queue
is drained and no solve is running, and the timer restarted; so every effect of the call,
the application of the move included, happens while the mutex is held.  Running the
effects in this order gives the result of `onPulse`. -/
theorem onPulse_lock_spans_branch {MOVE W : Type} (wmove : W → MOVE → W)
    (s : CubeSolver MOVE W) (now elapsed : ℚ) (move : MOVE) (rest : List MOVE)
    (hflag : s.movesInQueue = true) (hp : pacingOk s now) (hq : s.moveQueue = move :: rest) :
    onPulseEffects s now elapsed =
        [Effect.lock, Effect.front, Effect.pop, Effect.applyMove move,
            Effect.setMovesInQueue (!rest.isEmpty)] ++
          (if (!rest.isEmpty) = false ∧ s.solving = false then [Effect.enableMover] else []) ++
          [Effect.restartTimer, Effect.unlock] ∧
      heldEffects false (onPulseEffects s now elapsed) =
        [Effect.front, Effect.pop, Effect.applyMove move,
            Effect.setMovesInQueue (!rest.isEmpty)] ++
          (if (!rest.isEmpty) = false ∧ s.solving = false then [Effect.enableMover] else []) ++
          [Effect.restartTimer] ∧
      (onPulseEffects s now elapsed).foldlM (Effect.run wmove now) s =
        onPulse wmove s now elapsed := by
  have h : onPulseEffects s now elapsed =
      [Effect.lock, Effect.front, Effect.pop, Effect.applyMove move,
          Effect.setMovesInQueue (!rest.isEmpty)] ++
        (if (!rest.isEmpty) = false ∧ s.solving = false then [Effect.enableMover] else []) ++
        [Effect.restartTimer, Effect.unlock] := by
    unfold pacingOk at hp
    unfold onPulseEffects
    rw [if_pos ⟨hflag, hp⟩, hq]
  refine ⟨h, ?_, onPulseEffects_run wmove s now elapsed⟩
  rw [h]
  split <;> simp [heldEffects]

/-- Claim C17, amended, on a solver that is not solving, with the single move 7 queued and
the timer not started. -/
theorem onPulse_lock_spans_branch_witness :
    onPulseEffects (CubeSolver.mk ([] : List Nat) ⟨1⟩ ⟨false⟩ false true [7]
        Timer.init 290) 0 0 =
      [Effect.lock, Effect.front, Effect.pop, Effect.applyMove 7,
        Effect.setMovesInQueue false, Effect.enableMover, Effect.restartTimer,
        Effect.unlock] :=
  (onPulse_lock_spans_branch (fun (w : List Nat) (m : Nat) => w ++ [m])
    (CubeSolver.mk [] ⟨1⟩ ⟨false⟩ false true [7] Timer.init 290) 0 0 7 [] rfl
    (Or.inl rfl) rfl).1

/-- Claim C18: single-pass incompleteness.  On `U L L' U'`, with any budget above the
number of moves, `simplifyMoves` returns `U U'`: removing `L L'` leaves `U` and `U'` as
adjacent tokens, a pattern of the rewrite table, which no later call removes. -/
theorem simplifyMoves_single_pass_incomplete :
    (∀ fuel, 4 < fuel →
        simplifyMoves fuel ([Face.U.q, Face.L.q, Face.L.inv, Face.U.inv].map Move.token) =
          some ([Face.U.q, Face.U.inv].map Move.token)) ∧
      rulePair Face.U.q Face.U.inv = true ∧
      noRulePair [Face.U.q, Face.U.inv] = false ∧
      (("U U' ".toList, " ".toList) ∈ rewriteCalls) := by
  refine ⟨?_, by decide, by decide, by decide⟩
  intro fuel hf
  have e := simplifyMoves_eq [Face.U.q, Face.L.q, Face.L.inv, Face.U.inv] fuel hf
  have s : simplify [Face.U.q, Face.L.q, Face.L.inv, Face.U.inv] =
      [Face.U.q, Face.U.inv] := by decide
  rw [s] at e
  exact e

theorem isPrefixOf_length_le (a b : List Char) (h : a.isPrefixOf b = true) :
    a.length ≤ b.length :=
  (List.isPrefixOf_iff_prefix.mp h).length_le

theorem replaceStep_length (needle w : List Char) (haystack h' : List Char)
    (h : replaceStep needle haystack w = some h') :
    h'.length + needle.length = haystack.length + w.length := by
  induction haystack generalizing h' with
  | nil =>
    simp only [replaceStep, find] at h
    split at h
    · next hp =>
      have hn := isPrefixOf_length_le _ _ hp
      simp only [Option.map_some', Option.some.injEq] at h
      subst h
      simp only [List.length_nil, Nat.le_zero] at hn
      simp [strReplace, hn]
    · simp at h
  | cons c cs ih =>
    rw [replaceStep_cons] at h
    split at h
    · next hp =>
      have hn := isPrefixOf_length_le _ _ hp
      simp only [Option.some.injEq] at h
      subst h
      simp only [List.length_append, List.length_drop]
      omega
    · cases hr : replaceStep needle cs w with
      | none => simp [hr] at h
      | some h'' =>
        simp only [hr, Option.map_some', Option.some.injEq] at h
        subst h
        have := ih h'' hr
        simp only [List.length_cons]
        omega

theorem replace_terminates (needle w : List Char) (hlt : w.length < needle.length)
    (fuel : Nat) (haystack : List Char) (hf : haystack.length < fuel) :
    ∃ h', replace fuel needle haystack w = some h' ∧ h'.length ≤ haystack.length := by
  induction fuel generalizing haystack with
  | zero => exact absurd hf (Nat.not_lt_zero _)
  | succ fuel ih =>
    rw [replace_succ]
    cases hr : replaceStep needle haystack w with
    | none => exact ⟨haystack, rfl, le_refl _⟩
    | some h1 =>
      have hl := replaceStep_length needle w haystack h1 hr
      obtain ⟨h2, e2, l2⟩ := ih h1 (by omega)
      exact ⟨h2, e2, by omega⟩

theorem foldlM_terminates (calls : List (List Char × List Char))
    (hall : ∀ c ∈ calls, c.2.length < c.1.length) (fuel : Nat) (haystack : List Char)
    (hf : haystack.length < fuel) :
    ∃ r, calls.foldlM (fun movesStr call => replace fuel call.1 movesStr call.2) haystack =
      some r := by
  induction calls generalizing haystack with
  | nil => exact ⟨haystack, rfl⟩
  | cons c cs ih =>
    obtain ⟨h1, e1, l1⟩ := replace_terminates c.1 c.2 (hall c (by simp)) fuel haystack hf
    obtain ⟨r, er⟩ := ih (fun c' hc' => hall c' (by simp [hc'])) h1 (by omega)
    exact ⟨r, by simp [List.foldlM_cons, e1, er]⟩

theorem rewriteCalls_shorter : ∀ c ∈ rewriteCalls, c.2.length < c.1.length := by decide

/-- Claim C19: `simplifyMoves` terminates on every input.  Every needle of `rewriteCalls`
is strictly longer than its replacement, so one turn of the loop of `replace` strictly
shortens the haystack, each `replace` call returns within a budget above the length of its
haystack, and for every list of strings `simplifyMoves` returns with any budget above the
length of the joined text. -/
theorem simplifyMoves_terminates (moves : List (List Char)) :
    (∀ call ∈ rewriteCalls, call.2.length < call.1.length) ∧
      (∀ call ∈ rewriteCalls, ∀ haystack h' : List Char,
        replaceStep call.1 haystack call.2 = some h' → h'.length < haystack.length) ∧
      (∀ call ∈ rewriteCalls, ∀ (haystack : List Char) (fuel : Nat),
        haystack.length < fuel → ∃ h', replace fuel call.1 haystack call.2 = some h') ∧
      (∀ fuel, (joinMoves moves).length < fuel → ∃ r, simplifyMoves fuel moves = some r) := by
  refine ⟨rewriteCalls_shorter, ?_, ?_, ?_⟩
  · intro call hc haystack h' h
    have := replaceStep_length call.1 call.2 haystack h' h
    have := rewriteCalls_shorter call hc
    omega
  · intro call hc haystack fuel hf
    obtain ⟨h', e, -⟩ :=
      replace_terminates call.1 call.2 (rewriteCalls_shorter call hc) fuel haystack hf
    exact ⟨h', e⟩
  · intro fuel hf
    obtain ⟨r, er⟩ := foldlM_terminates rewriteCalls rewriteCalls_shorter fuel _ hf
    exact ⟨readWords r [], by simp [simplifyMoves, er]⟩

end busybin
